import Mathlib

/-!
Verification of the document-processing and retrieval-aggregation core of the
Job-Search-App repository against its natural-language specification.

The Python sources embedded here are:
  src/job_search/ml/text_processing.py  (cleaning, section identification, chunking)
  src/job_search/ml/ner.py              (regex metadata extraction)
  src/job_search/core/search.py         (chunk aggregation and the filter engine)

Modelling conventions:
  - Python `str` is modelled as `List Char` (`Str`), so that all string
    operations are structurally recursive and executable.
  - Python `float` is modelled as `ℚ`; numeric literals are written with
    `mkRat` so that every arithmetic step is kernel-reducible.
  - Python's `re` library is the only part treated as an external collaborator:
    where a regex is simple enough (anchored alternations, word scans) it is
    implemented exactly; where a claim does not depend on the regex internals
    (the boilerplate-removal substitutions, the salary `findall` results) the
    library call's output is passed in as an explicit argument, and every
    concrete instantiation is documented against the Python behaviour.
  - Possibly non-terminating `while` loops (the overlapping chunkers) are
    modelled with sufficient fuel, returning `Option`; `none` models
    divergence of the Python loop.
-/

set_option maxRecDepth 100000

namespace JobSearch

/-- Python strings are modelled as lists of characters. -/
abbrev Str := List Char

/-- Coerce a Lean string literal into the model type. -/
def strOf (s : String) : Str := s.toList

/-- The whitespace class used by Python's `str.split`, `str.strip` and `\s`
(ASCII fragment). -/
def isSpace (c : Char) : Bool :=
  c = ' ' || c = '\t' || c = '\n' || c = '\r' || c = '\x0b' || c = '\x0c'

/-- Python `str.lower` (ASCII fragment). -/
def lowerStr (s : Str) : Str := s.map Char.toLower

/-- Python's substring test `pat in s` (`str.__contains__`). -/
def containsSub (pat : Str) : Str → Bool
  | [] => pat.isEmpty
  | c :: cs => pat.isPrefixOf (c :: cs) || containsSub pat cs

/-- Split a character list at every character satisfying `p`, keeping empty
pieces (the shape shared by Python `str.split('\n')` and the word splitter). -/
def splitOnPred (p : Char → Bool) : Str → List Str
  | [] => [[]]
  | c :: cs =>
    if p c then [] :: splitOnPred p cs
    else
      match splitOnPred p cs with
      | [] => [[c]]
      | w :: rest => (c :: w) :: rest

/-- Python `text.split('\n')`. -/
def splitLines (s : Str) : List Str := splitOnPred (fun c => c = '\n') s

/-- Python `text.split()` — split on whitespace runs, dropping empty pieces. -/
def pyWords (s : Str) : List Str :=
  (splitOnPred isSpace s).filter (fun w => !w.isEmpty)

/-- Join with a single separator character, as Python `sep.join(pieces)`. -/
def joinSep (sep : Char) : List Str → Str
  | [] => []
  | [l] => l
  | l :: l' :: ls => l ++ sep :: joinSep sep (l' :: ls)

/-- Python `str.strip()`: drop leading and trailing whitespace. -/
def pyStrip (s : Str) : Str :=
  ((s.dropWhile isSpace).reverse.dropWhile isSpace).reverse

/-- Python `str.title()` restricted to ASCII letters: uppercase every letter
that does not follow a letter, lowercase the other letters. -/
def pyTitleAux : Bool → Str → Str
  | _, [] => []
  | prevAlpha, c :: cs =>
    if c.isAlpha then
      (if prevAlpha then c.toLower else c.toUpper) :: pyTitleAux true cs
    else
      c :: pyTitleAux false cs

/-- Python `str.title()`. -/
def pyTitle (s : Str) : Str := pyTitleAux false s

/-- Rational literal helper: `q n d` is the exact value `n / d`. -/
def q (n : Int) (d : Nat) : ℚ := mkRat n d

/-- Python `min(a, b)` on floats, modelled exactly on ℚ. -/
def qmin (a b : ℚ) : ℚ := if a ≤ b then a else b

/-- Python `max(a, b)` on floats, modelled exactly on ℚ. -/
def qmax (a b : ℚ) : ℚ := if a < b then b else a

/-!
Section-header regexes of `AdvancedTextProcessor._compile_patterns`.

Each pattern has the shape `(?i)^(alt1|alt2|...)[\s\:]*$` and is applied with
`.search` to a single stripped line (so `^`/`$` bind the whole line).  The
alternatives are word sequences joined by `\s+` (one or more whitespace
characters), with `.` (any one character) appearing in `what\s+you.ll\s+do`
and `what\s+we.re\s+looking\s+for`.  A line matches iff some alternative
consumes a prefix case-insensitively and the remainder consists only of
whitespace and colons.  Greedy matching of `\s+` is exact here because every
`\s+` is followed by a letter, which is not whitespace.
-/

/-- One atom of a header alternative: a literal character (compared
case-insensitively), `\s+`, or `.` (any single character). -/
inductive PatAtom
  | lit (c : Char)
  | wsPlus
  | anyOne
  deriving Repr

/-- Match a sequence of atoms against a prefix of `s`, returning the
remainder on success. -/
def matchAtoms : List PatAtom → Str → Option Str
  | [], s => some s
  | PatAtom.lit c :: ps, x :: xs =>
    if x.toLower = c.toLower then matchAtoms ps xs else none
  | PatAtom.wsPlus :: ps, x :: xs =>
    if isSpace x then matchAtoms ps (xs.dropWhile isSpace) else none
  | PatAtom.anyOne :: ps, _ :: xs => matchAtoms ps xs
  | _ :: _, [] => none

/-- Literal word as a list of atoms. -/
def lits (s : String) : List PatAtom := s.toList.map PatAtom.lit

/-- A stripped line matches `(?i)^(alts)[\s\:]*$` iff some alternative
matches a prefix whose remainder is only whitespace and colons. -/
def lineMatchesAlts (alts : List (List PatAtom)) (line : Str) : Bool :=
  alts.any fun alt =>
    match matchAtoms alt line with
    | some rest => rest.all (fun c => isSpace c || c = ':')
    | none => false

/-- Alternatives of the `responsibilities` header pattern:
`responsibilities|duties|what\s+you.ll\s+do|your\s+role|job\s+description`. -/
def respAlts : List (List PatAtom) :=
  [lits "responsibilities",
   lits "duties",
   lits "what" ++ [PatAtom.wsPlus] ++ lits "you" ++ [PatAtom.anyOne] ++ lits "ll"
     ++ [PatAtom.wsPlus] ++ lits "do",
   lits "your" ++ [PatAtom.wsPlus] ++ lits "role",
   lits "job" ++ [PatAtom.wsPlus] ++ lits "description"]

/-- Alternatives of the `requirements` header pattern:
`requirements|qualifications|what\s+we.re\s+looking\s+for|must\s+have|preferred|skills`. -/
def reqAlts : List (List PatAtom) :=
  [lits "requirements",
   lits "qualifications",
   lits "what" ++ [PatAtom.wsPlus] ++ lits "we" ++ [PatAtom.anyOne] ++ lits "re"
     ++ [PatAtom.wsPlus] ++ lits "looking" ++ [PatAtom.wsPlus] ++ lits "for",
   lits "must" ++ [PatAtom.wsPlus] ++ lits "have",
   lits "preferred",
   lits "skills"]

/-- Alternatives of the `benefits` header pattern:
`benefits|perks|what\s+we\s+offer|compensation|package`. -/
def benAlts : List (List PatAtom) :=
  [lits "benefits",
   lits "perks",
   lits "what" ++ [PatAtom.wsPlus] ++ lits "we" ++ [PatAtom.wsPlus] ++ lits "offer",
   lits "compensation",
   lits "package"]

/-- Alternatives of the `about` header pattern:
`about\s+us|about\s+the\s+company|company|overview`. -/
def aboutAlts : List (List PatAtom) :=
  [lits "about" ++ [PatAtom.wsPlus] ++ lits "us",
   lits "about" ++ [PatAtom.wsPlus] ++ lits "the" ++ [PatAtom.wsPlus] ++ lits "company",
   lits "company",
   lits "overview"]

/-- Alternatives of the `location` header pattern: `location|where|office`. -/
def locAlts : List (List PatAtom) :=
  [lits "location", lits "where", lits "office"]

/-- The header-type detection of `identify_sections`: the section-header
patterns are tried in the dictionary order of `self.section_headers` and the
first matching type wins. -/
def sectionHeaderType (line : Str) : Option Str :=
  if lineMatchesAlts respAlts line then some (strOf "responsibilities")
  else if lineMatchesAlts reqAlts line then some (strOf "requirements")
  else if lineMatchesAlts benAlts line then some (strOf "benefits")
  else if lineMatchesAlts aboutAlts line then some (strOf "about")
  else if lineMatchesAlts locAlts line then some (strOf "location")
  else none

/-- Python `dict` assignment `d[k] = v` on an insertion-ordered association
list: an existing key keeps its position, a new key is appended. -/
def dictSet : List (Str × Str) → Str → Str → List (Str × Str)
  | [], k, v => [(k, v)]
  | (k', v') :: rest, k, v =>
    if k' = k then (k', v) :: rest else (k', v') :: dictSet rest k v

/-- Lookup in the association list (Python `d.get(k)` / `d[k]`). -/
def dictLookup (m : List (Str × Str)) (k : Str) : Option Str :=
  match m with
  | [] => none
  | (k', v) :: rest => if k' = k then some v else dictLookup rest k

/-- The line loop of `identify_sections`: state is the sections dict, the
current section name and the accumulated content lines. -/
def identifySectionsLoop :
    List Str → List (Str × Str) → Str → List Str → List (Str × Str)
  | [], secs, cur, acc =>
    if acc.isEmpty then secs else dictSet secs cur (pyStrip (joinSep '\n' acc))
  | rawLine :: rest, secs, cur, acc =>
    let line := pyStrip rawLine
    if line.isEmpty then identifySectionsLoop rest secs cur acc
    else
      match sectionHeaderType line with
      | some ty =>
        let secs' :=
          if acc.isEmpty then secs else dictSet secs cur (pyStrip (joinSep '\n' acc))
        identifySectionsLoop rest secs' ty []
      | none => identifySectionsLoop rest secs cur (acc ++ [line])

/-- `AdvancedTextProcessor.identify_sections`: split into lines, route each
stripped non-empty line either into a new section (header match) or into the
current section's content; lines before the first header accumulate under
`summary`. -/
def identifySections (text : Str) : List (Str × Str) :=
  identifySectionsLoop (splitLines text) [] (strOf "summary") []

/-- The `TextChunk` dataclass of text_processing.py. -/
structure TextChunk where
  text : Str
  chunk_type : Str
  chunk_index : Nat
  parent_job_id : Str
  word_count : Nat
  overlap_start : Nat := 0
  overlap_end : Nat := 0
  confidence_score : ℚ := q 1 1
  section_header : Option Str := none
  deriving DecidableEq, Repr

/-- The chunking configuration held by `AdvancedTextProcessor.__init__`
(`max_chunk_size`, `overlap_size`, `min_chunk_size`); the constructor stores
the values without any validation. -/
structure Cfg where
  max_chunk_size : Nat
  overlap_size : Nat
  min_chunk_size : Nat
  deriving DecidableEq, Repr

/-- Pattern `^.{0,20}$` (no MULTILINE, `.` excludes newlines, `$` also
matches just before a final newline), applied with `.search`: the text is at
most 20 newline-free characters, optionally followed by one final newline. -/
def matchVeryShort (s : Str) : Bool :=
  (decide (s.length ≤ 20) && !(s.contains '\n')) ||
  (decide (s.length ≤ 21) && decide (1 ≤ s.length) &&
    s.getLast? = some '\n' && !(s.dropLast.contains '\n'))

/-- Pattern `^\s*[-•\*]\s*$`: optional whitespace, one bullet character,
optional whitespace. -/
def matchEmptyBullet (s : Str) : Bool :=
  match s.dropWhile isSpace with
  | [] => false
  | b :: rest => (b = '-' || b = '•' || b = '*') && rest.all isSpace

/-- Pattern `^\s*\d+\.\s*$`: optional whitespace, digits, a dot, optional
whitespace. -/
def matchEmptyNumbered (s : Str) : Bool :=
  let t := s.dropWhile isSpace
  let ds := t.takeWhile Char.isDigit
  match t.dropWhile Char.isDigit with
  | '.' :: rest => !ds.isEmpty && rest.all isSpace
  | _ => false

/-- Pattern `^\s*[:\-\=]{3,}\s*$`: optional whitespace, three or more
separator characters, optional whitespace. -/
def matchSeparator (s : Str) : Bool :=
  let t := s.dropWhile isSpace
  let seps := t.takeWhile (fun c => c = ':' || c = '-' || c = '=')
  decide (3 ≤ seps.length) &&
    (t.dropWhile (fun c => c = ':' || c = '-' || c = '=')).all isSpace

/-- The `low_quality_patterns` check of `_calculate_chunk_quality` (the Python
loop breaks after the first matching pattern, so only whether any matches
counts). -/
def lowQualityMatch (s : Str) : Bool :=
  matchVeryShort s || matchEmptyBullet s || matchEmptyNumbered s || matchSeparator s

/-- `technical_keywords` of `_calculate_chunk_quality`. -/
def technicalKeywords : List Str :=
  [strOf "experience", strOf "required", strOf "skills",
   strOf "responsibilities", strOf "qualifications"]

/-- Unanchored search for `[•\-\*]\s+`: some bullet character immediately
followed by whitespace. -/
def hasBulletMarkup : Str → Bool
  | a :: b :: rest =>
    ((a = '•' || a = '-' || a = '*') && isSpace b) || hasBulletMarkup (b :: rest)
  | _ => false

/-- Unanchored search for `\d+\.\s+`: a digit immediately followed by a dot
and whitespace (existence of a match is equivalent to this local condition). -/
def hasNumberedMarkup : Str → Bool
  | a :: b :: c :: rest =>
    (a.isDigit && b = '.' && isSpace c) || hasNumberedMarkup (b :: c :: rest)
  | _ => false

/-- `AdvancedTextProcessor._calculate_chunk_quality`: start at 1.0, halve for
fewer than 20 words, multiply by 0.7 on a low-quality pattern, add 0.1 per
distinct technical keyword present, add 0.1 for bullet/numbered markup, and
clamp to at most 1.0. -/
def calcChunkQuality (text : Str) : ℚ :=
  if text.isEmpty then q 0 1
  else
    let words := pyWords text
    let s1 := if words.length < 20 then q 1 1 * q 1 2 else q 1 1
    let s2 := if lowQualityMatch text then s1 * q 7 10 else s1
    let techCount :=
      (technicalKeywords.filter (fun k => containsSub k (lowerStr text))).length
    let s3 := s2 + mkRat techCount 1 * q 1 10
    let s4 := if hasBulletMarkup text || hasNumberedMarkup text then s3 + q 1 10 else s3
    qmin (q 1 1) s4

/-- The `while start < len(words)` loop of `_split_long_section`, with fuel.
Each iteration takes `words[start:start+max_chunk_size]` as a
`<type>_part` chunk indexed `base_index*100 + sub_index` and advances
`start` by `max_chunk_size - overlap_size`.  Running out of fuel models
divergence of the Python loop (which happens when the step is not positive). -/
def splitLongSectionLoop (c : Cfg) (section_type job_id : Str) (base_index : Nat)
    (words : List Str) : Nat → Nat → Nat → Option (List TextChunk)
  | 0, start, _ => if start < words.length then none else some []
  | fuel + 1, start, sub_index =>
    if start < words.length then
      let e := min (start + c.max_chunk_size) words.length
      let chunk_words := (words.drop start).take (e - start)
      let chunk_text := joinSep ' ' chunk_words
      let ch : TextChunk :=
        { text := chunk_text
          chunk_type := section_type ++ strOf "_part"
          chunk_index := base_index * 100 + sub_index
          parent_job_id := job_id
          word_count := chunk_words.length
          section_header := some (pyTitle section_type)
          confidence_score := calcChunkQuality chunk_text }
      match splitLongSectionLoop c section_type job_id base_index words fuel
          (start + (c.max_chunk_size - c.overlap_size)) (sub_index + 1) with
      | some rest => some (ch :: rest)
      | none => none
    else some []

/-- `AdvancedTextProcessor._split_long_section`.  The fuel
`words.length + 1` is sufficient whenever `overlap_size < max_chunk_size`. -/
def splitLongSection (c : Cfg) (text section_type job_id : Str) (base_index : Nat) :
    Option (List TextChunk) :=
  let words := pyWords text
  splitLongSectionLoop c section_type job_id base_index words (words.length + 1) 0 0

/-- The `while start < len(words)` loop of `_create_overlapping_chunks`,
with fuel. -/
def overlappingLoop (c : Cfg) (job_id : Str) (words : List Str) :
    Nat → Nat → Nat → Option (List TextChunk)
  | 0, start, _ => if start < words.length then none else some []
  | fuel + 1, start, chunk_index =>
    if start < words.length then
      let e := min (start + c.max_chunk_size) words.length
      let chunk_words := (words.drop start).take (e - start)
      let chunk_text := joinSep ' ' chunk_words
      let ov_start := if 0 < start then start - c.overlap_size else 0
      let ov_end := if e < words.length then min (e + c.overlap_size) words.length else e
      let ch : TextChunk :=
        { text := chunk_text
          chunk_type := strOf "segment"
          chunk_index := chunk_index
          parent_job_id := job_id
          word_count := chunk_words.length
          overlap_start := ov_start
          overlap_end := ov_end
          confidence_score := calcChunkQuality chunk_text }
      match overlappingLoop c job_id words fuel
          (start + (c.max_chunk_size - c.overlap_size)) (chunk_index + 1) with
      | some rest => some (ch :: rest)
      | none => none
    else some []

/-- `AdvancedTextProcessor._create_overlapping_chunks`: a single `full` chunk
when the text fits in one window, otherwise the overlapping window loop.
`max(0, start - overlap_size)` is the truncated subtraction on `Nat`. -/
def createOverlappingChunks (c : Cfg) (text job_id : Str) : Option (List TextChunk) :=
  let words := pyWords text
  if words.length ≤ c.max_chunk_size then
    some [{ text := text
            chunk_type := strOf "full"
            chunk_index := 0
            parent_job_id := job_id
            word_count := words.length
            confidence_score := calcChunkQuality text }]
  else
    overlappingLoop c job_id words (words.length + 1) 0 0

/-- The `for i, (section_type, section_content) in enumerate(sections.items())`
loop of `_create_section_chunks`: empty contents are skipped, contents below
`min_chunk_size` are dropped, contents up to `max_chunk_size` become one
chunk indexed by the enumeration position, larger contents are split
via `_split_long_section`. -/
def sectionChunksCore (c : Cfg) (job_id : Str) :
    List (Nat × Str × Str) → Option (List TextChunk)
  | [] => some []
  | (i, section_type, section_content) :: rest =>
    if section_content.isEmpty then sectionChunksCore c job_id rest
    else
      let words := pyWords section_content
      let word_count := words.length
      if word_count < c.min_chunk_size then sectionChunksCore c job_id rest
      else if word_count ≤ c.max_chunk_size then
        match sectionChunksCore c job_id rest with
        | some tail =>
          some ({ text := section_content
                  chunk_type := section_type
                  chunk_index := i
                  parent_job_id := job_id
                  word_count := word_count
                  section_header := some (pyTitle section_type)
                  confidence_score := calcChunkQuality section_content } :: tail)
        | none => none
      else
        match splitLongSection c section_content section_type job_id i with
        | some subs =>
          match sectionChunksCore c job_id rest with
          | some tail => some (subs ++ tail)
          | none => none
        | none => none

/-- `AdvancedTextProcessor._create_section_chunks`: section chunks followed by
a synthetic `full` chunk (confidence 0.8, index = current list length), the
latter only when the whole text has at least `min_chunk_size` words. -/
def createSectionChunks (c : Cfg) (text job_id : Str) : Option (List TextChunk) :=
  match sectionChunksCore c job_id (identifySections text).enum with
  | some chunks =>
    let full_text_words := pyWords text
    if c.min_chunk_size ≤ full_text_words.length then
      some (chunks ++
        [{ text := text
           chunk_type := strOf "full"
           chunk_index := chunks.length
           parent_job_id := job_id
           word_count := full_text_words.length
           confidence_score := q 8 10 }])
    else some chunks
  | none => none

/-- `AdvancedTextProcessor._calculate_boilerplate_ratio`.  The substitution of
the eleven boilerplate regexes is the `re` library's work and is passed in as
`bpSub` (the text after `pattern.sub('', ...)` for all patterns); on any text
containing none of the boilerplate phrases the Python substitutions are the
identity. -/
def boilerplateRat (bpSub : Str → Str) (text : Str) : ℚ :=
  if text.isEmpty then q 1 1
  else mkRat ((text.length : Int) - ((bpSub text).length : Int)) text.length

/-- The keep-condition of `_filter_chunks`, mirroring its three `continue`
branches. -/
def keepChunk (c : Cfg) (bpSub : Str → Str) (ch : TextChunk) : Bool :=
  if ch.word_count < c.min_chunk_size then false
  else if ch.confidence_score < q 3 10 then false
  else if q 7 10 < boilerplateRat bpSub ch.text then false
  else true

/-- `AdvancedTextProcessor._filter_chunks`. -/
def filterChunks (c : Cfg) (bpSub : Str → Str) (chunks : List TextChunk) :
    List TextChunk :=
  chunks.filter (keepChunk c bpSub)

/-- `AdvancedTextProcessor.create_chunks`: strategy dispatch (`sections`,
`overlapping`, `hybrid`, anything else giving the empty list) followed by
`_filter_chunks`. -/
def createChunks (c : Cfg) (bpSub : Str → Str) (text job_id strategy : Str) :
    Option (List TextChunk) :=
  let raw : Option (List TextChunk) :=
    if strategy = strOf "sections" then createSectionChunks c text job_id
    else if strategy = strOf "overlapping" then createOverlappingChunks c text job_id
    else if strategy = strOf "hybrid" then
      if 1 < (identifySections text).length then createSectionChunks c text job_id
      else createOverlappingChunks c text job_id
    else some []
  raw.map (filterChunks c bpSub)

/-!
Embedding of the regex metadata extractor of ner.py
(`JobMetadataExtractor.extract_experience_regex`, `extract_skills_regex`,
`extract_salary_regex`).  The simple scanning regexes are implemented
exactly; greedy matching is exact throughout because each greedy element's
character class is disjoint from what can follow it.
-/

/-- Case-insensitively match the literal pattern as a prefix, returning the
remainder. -/
def ciDropL : Str → Str → Option Str
  | [], s => some s
  | _ :: _, [] => none
  | p :: ps, c :: cs => if c.toLower = p.toLower then ciDropL ps cs else none

/-- Case-insensitive literal-prefix drop with a string-literal pattern. -/
def ciDrop (pat : String) (s : Str) : Option Str := ciDropL pat.toList s

/-- Remainders after the unit alternation `(?:years?|yrs?)` (all alternative
expansions; for match existence trying them all is exact). -/
def yearsUnitRems (s : Str) : List Str :=
  [ciDrop "years" s, ciDrop "year" s, ciDrop "yrs" s, ciDrop "yr" s].filterMap id

/-- `(?:experience|exp)` at the start of `s` (nothing follows in the
pattern, so any remainder is accepted). -/
def expTail (s : Str) : Bool :=
  (ciDrop "experience" s).isSome || (ciDrop "exp" s).isSome

/-- The part of the years-of-experience regex
`(\d+)[\+]?\s*(?:years?|yrs?)\s*(?:of\s*)?(?:experience|exp)` that follows
the digit group, applied to the text right after the digits. -/
def afterYearsNum (s : Str) : Bool :=
  let s1 := match s with
    | '+' :: r => r
    | _ => s
  let s2 := s1.dropWhile isSpace
  (yearsUnitRems s2).any fun r =>
    let t := r.dropWhile isSpace
    match ciDrop "of" t with
    | some u => expTail (u.dropWhile isSpace) || expTail t
    | none => expTail t

/-- Decimal value of a digit run. -/
def natOfDigits (ds : Str) : Nat :=
  ds.foldl (fun a c => a * 10 + (c.toNat - 48)) 0

/-- First (leftmost) match of the years-of-experience regex; the captured
group is the digit run, converted by `int(...)`.  Positions inside a digit
run agree with the run's start on success/failure, so skipping one character
at a time is exact. -/
def findExpYears : Str → Option Nat
  | [] => none
  | c :: cs =>
    if c.isDigit then
      let ds := (c :: cs).takeWhile Char.isDigit
      let rest := (c :: cs).dropWhile Char.isDigit
      if afterYearsNum rest then some (natOfDigits ds) else findExpYears cs
    else findExpYears cs

/-- Python's `\w` (ASCII fragment). -/
def isWordChar (c : Char) : Bool := c.isAlphanum || c = '_'

/-- `\b` before a match whose first character is a word character: the
preceding character (if any) must not be a word character. -/
def boundaryBefore : Option Char → Bool
  | none => true
  | some c => !isWordChar c

/-- Run a matcher and require a `\b` after it, for matchers whose last
consumed character is a word character. -/
def matchWithEndBoundary (m : Str → Option Str) (s : Str) : Bool :=
  match m s with
  | some [] => true
  | some (c :: _) => !isWordChar c
  | none => false

/-- `re.search` for a `\b...\b` pattern: try every position, tracking the
previous character for the leading boundary. -/
def searchBnd (m : Str → Option Str) : Option Char → Str → Bool
  | _, [] => false
  | prev, c :: cs =>
    (boundaryBefore prev && matchWithEndBoundary m (c :: cs)) ||
      searchBnd m (some c) cs

/-- Matcher for `entry[\-\s]*level` / `mid[\-\s]*level` shapes. -/
def hyphenWordMatcher (w1 w2 : String) (s : Str) : Option Str :=
  (ciDrop w1 s).bind fun r =>
    ciDrop w2 (r.dropWhile (fun c => c = '-' || isSpace c))

/-- `level_patterns['entry']`: `\b(?:entry[\-\s]*level|junior|intern|graduate|trainee)\b`. -/
def entryMatchers : List (Str → Option Str) :=
  [hyphenWordMatcher "entry" "level", ciDrop "junior", ciDrop "intern",
   ciDrop "graduate", ciDrop "trainee"]

/-- `level_patterns['mid']`: `\b(?:mid[\-\s]*level|intermediate|regular)\b`. -/
def midMatchers : List (Str → Option Str) :=
  [hyphenWordMatcher "mid" "level", ciDrop "intermediate", ciDrop "regular"]

/-- `level_patterns['senior']`: `\b(?:senior|lead|principal|staff)\b`. -/
def seniorMatchers : List (Str → Option Str) :=
  [ciDrop "senior", ciDrop "lead", ciDrop "principal", ciDrop "staff"]

/-- `level_patterns['executive']`: `\b(?:manager|director|head|vp|cto|ceo)\b`. -/
def execMatchers : List (Str → Option Str) :=
  [ciDrop "manager", ciDrop "director", ciDrop "head", ciDrop "vp",
   ciDrop "cto", ciDrop "ceo"]

/-- A level pattern matches somewhere in the text iff some alternative does. -/
def searchAnyAlt (ms : List (Str → Option Str)) (s : Str) : Bool :=
  ms.any fun m => searchBnd m none s

/-- The experience-level loop of `extract_experience_regex`: levels are tried
in dict order and the first match wins. -/
def extractExpLevel (text : Str) : Option Str :=
  if searchAnyAlt entryMatchers text then some (strOf "entry")
  else if searchAnyAlt midMatchers text then some (strOf "mid")
  else if searchAnyAlt seniorMatchers text then some (strOf "senior")
  else if searchAnyAlt execMatchers text then some (strOf "executive")
  else none

/-- The dictionary built by `extract_experience_regex` (`years` and `level`
keys, either possibly absent). -/
structure ExperienceInfo where
  years : Option Nat := none
  level : Option Str := none
  deriving DecidableEq, Repr

/-- `JobMetadataExtractor.extract_experience_regex`. -/
def extractExperienceRegex (text : Str) : ExperienceInfo :=
  { years := findExpYears text, level := extractExpLevel text }

/-- First alternative (in pattern order) matching at this position with both
word boundaries, returning the matched slice of the original text and its
length.  Python's regex alternation tries alternatives left to right and a
failing trailing `\b` moves on to the next alternative. -/
def firstAltMatch (alts : List String) (prev : Option Char) (s : Str) :
    Option (Str × Nat) :=
  match alts with
  | [] => none
  | a :: rest =>
    let pat := a.toList
    match ciDropL pat s with
    | some r =>
      let bOk :=
        match pat.head? with
        | some c0 =>
          (match prev with
           | some pc => isWordChar pc
           | none => false) != isWordChar c0
        | none => true
      let eOk :=
        match pat.getLast?, r.head? with
        | some cl, some cn => isWordChar cl != isWordChar cn
        | some cl, none => isWordChar cl
        | none, _ => true
      if bOk && eOk then some (s.take pat.length, pat.length)
      else firstAltMatch rest prev s
    | none => firstAltMatch rest prev s

/-- The scan loop of `re.findall` for a `\b(?:kw1|kw2|...)\b` keyword
alternation, with fuel (structural, so that it evaluates in the kernel):
scan left to right, emit each non-overlapping match (the matched text, in
original case), resume after the match.  Every step consumes at least one
character, so fuel equal to the text length is sufficient. -/
def findKeywordMatchesAux (alts : List String) : Nat → Option Char → Str → List Str
  | 0, _, _ => []
  | _ + 1, _, [] => []
  | fuel + 1, prev, c :: cs =>
    match firstAltMatch alts prev (c :: cs) with
    | some (matched, n) =>
      matched :: findKeywordMatchesAux alts fuel matched.getLast? ((c :: cs).drop (max n 1))
    | none => findKeywordMatchesAux alts fuel (some c) cs

/-- `re.findall` for a keyword alternation pattern. -/
def findKeywordMatches (alts : List String) (prev : Option Char) (s : Str) : List Str :=
  findKeywordMatchesAux alts s.length prev s

/-- The five keyword groups of `extract_skills_regex`, in source order. -/
def skillGroups : List (List String) :=
  [["Python", "JavaScript", "TypeScript", "Java", "C++", "C#", "Go", "Rust",
    "Ruby", "PHP", "Swift", "Kotlin"],
   ["React", "Angular", "Vue", "Django", "Flask", "FastAPI", "Express",
    "Node.js", "Spring"],
   ["PostgreSQL", "MySQL", "MongoDB", "Redis", "Elasticsearch", "SQLite"],
   ["AWS", "Azure", "GCP", "Google Cloud", "Docker", "Kubernetes"],
   ["Git", "GitHub", "GitLab", "Jira", "VS Code", "Postman"]]

/-- `JobMetadataExtractor.extract_skills_regex`: the union of the matches of
the five patterns.  Python collects them in a `set` (unordered); the model
returns the concatenated match lists, and only membership is meaningful. -/
def extractSkillsRegex (text : Str) : List Str :=
  (skillGroups.map (fun alts => findKeywordMatches alts none text)).flatten

/-!
`JobMetadataExtractor.extract_salary_regex` iterates eight regex patterns,
takes `matches[0]` of the first pattern whose `re.findall` result is
non-empty, and branches on whether the match is a two-group tuple (range) or
a single string, multiplying by 1000 when the pattern string contains "k".
The `re.findall` results are the `re` library's outputs and are passed in as
a `SalaryMatches` record (one field per pattern, in source order); the
branching, conversion and bounds logic below is the translated source.
-/

/-- The eight `re.findall` results consumed by `extract_salary_regex`:
`p1` = `\$(\d[groups])\s*[-–—]\s*\$(\d[groups])`,
`p2` = the same range anchored by `salary[:\s]*`,
`p3` = `(\d{2,3})k\s*[-–—]\s*(\d{2,3})k`,
`p4`..`p6` = single `$` amounts after `salary`/`compensation`/`pay`,
`p7` = `salary[:\s]*(\d{2,3})k`, `p8` = `(?<!401\s)(\d{2,3})k(?:\s|$)`. -/
structure SalaryMatches where
  p1 : List (Str × Str) := []
  p2 : List (Str × Str) := []
  p3 : List (Str × Str) := []
  p4 : List Str := []
  p5 : List Str := []
  p6 : List Str := []
  p7 : List Str := []
  p8 : List Str := []
  deriving DecidableEq, Repr

/-- The `salary_info` dictionary (`min`/`max`/`amount` keys). -/
structure SalaryInfo where
  min : Option Int := none
  max : Option Int := none
  amount : Option Int := none
  deriving DecidableEq, Repr

/-- `int(s.replace(',', ''))` on a digits-and-commas group. -/
def pyIntCommas (s : Str) : Int :=
  ((s.filter (fun c => c ≠ ',')).foldl (fun a c => a * 10 + (c.toNat - 48)) 0 : Nat)

/-- The single-value branch: only amounts within the sane bound
`20000 <= amount <= 1000000` are recorded. -/
def salarySingle (n : Int) : SalaryInfo :=
  if 20000 ≤ n ∧ n ≤ 1000000 then { amount := some n } else {}

/-- The range branch for `$`-patterns (no bound check in the source). -/
def salaryRange (g : Str × Str) : SalaryInfo :=
  { min := some (pyIntCommas g.1), max := some (pyIntCommas g.2) }

/-- The range branch for the `k`-pattern (values scaled by 1000, no bound
check in the source). -/
def salaryRangeK (g : Str × Str) : SalaryInfo :=
  { min := some (pyIntCommas g.1 * 1000), max := some (pyIntCommas g.2 * 1000) }

/-- The pattern loop of `extract_salary_regex`: first pattern with a match
wins (`break`). -/
def extractSalaryCore (m : SalaryMatches) : SalaryInfo :=
  match m.p1 with
  | g :: _ => salaryRange g
  | [] =>
  match m.p2 with
  | g :: _ => salaryRange g
  | [] =>
  match m.p3 with
  | g :: _ => salaryRangeK g
  | [] =>
  match m.p4 with
  | a :: _ => salarySingle (pyIntCommas a)
  | [] =>
  match m.p5 with
  | a :: _ => salarySingle (pyIntCommas a)
  | [] =>
  match m.p6 with
  | a :: _ => salarySingle (pyIntCommas a)
  | [] =>
  match m.p7 with
  | a :: _ => salarySingle (pyIntCommas a * 1000)
  | [] =>
  match m.p8 with
  | a :: _ => salarySingle (pyIntCommas a * 1000)
  | [] => {}

/-!
Embedding of the query-time aggregation and filtering of search.py
(`_aggregate_chunks_to_jobs` and `_filter_jobs`).
-/

/-- A chunk-level hit returned by the vector store: `id`, `score`, and the
`parent_job_id` field of its metadata (`none` models an absent key). -/
structure ChunkHit where
  id : Str
  score : ℚ
  parent_job_id : Option Str := none
  deriving DecidableEq, Repr

/-- Python `s.split(pat)[0]`: the prefix before the first occurrence of
`pat` (the whole string when `pat` does not occur). -/
def beforeFirst (pat : Str) : Str → Str
  | [] => []
  | c :: cs => if pat.isPrefixOf (c :: cs) then [] else c :: beforeFirst pat cs

/-- The grouping key of `_aggregate_chunks_to_jobs`:
`metadata.get('parent_job_id', chunk.get('id', '').split('_chunk_')[0])`. -/
def hitKey (h : ChunkHit) : Str :=
  match h.parent_job_id with
  | some p => p
  | none => beforeFirst (strOf "_chunk_") h.id

/-- The distinct group keys in first-occurrence order (Python dict insertion
order). -/
def groupKeys (hits : List ChunkHit) : List Str :=
  hits.foldl (fun acc h => if acc.contains (hitKey h) then acc else acc ++ [hitKey h]) []

/-- The similarity scores of one job's group, in arrival order. -/
def scoresFor (hits : List ChunkHit) (k : Str) : List ℚ :=
  (hits.filter (fun h => hitKey h == k)).map ChunkHit.score

/-- Python `max(scores) if scores else 0`. -/
def pyMaxD : List ℚ → ℚ
  | [] => q 0 1
  | x :: xs => xs.foldl qmax x

/-- Python `min(scores) if scores else 0` (used by the specification's
bounds statement). -/
def pyMinD : List ℚ → ℚ
  | [] => q 0 1
  | x :: xs => xs.foldl qmin x

/-- Python `sum(scores) / len(scores) if scores else 0`. -/
def pyAvg (l : List ℚ) : ℚ :=
  if l.isEmpty then q 0 1 else l.sum / mkRat l.length 1

/-- `weighted_score = max_score * 0.7 + avg_score * 0.3`. -/
def aggScore (scores : List ℚ) : ℚ :=
  pyMaxD scores * q 7 10 + pyAvg scores * q 3 10

/-- The job-level `(id, score)` pairs produced by `_aggregate_chunks_to_jobs`
before the final descending sort: one entry per group, in group insertion
order. -/
def aggregatedPairs (hits : List ChunkHit) : List (Str × ℚ) :=
  (groupKeys hits).map fun k => (k, aggScore (scoresFor hits k))

/-- The metadata fields of an aggregated job that `_filter_jobs` reads. -/
structure JobMeta where
  text : Str
  experience_level : Option Str := none
  experience_years : Option Nat := none
  salary_min : Option Nat := none
  salary_max : Option Nat := none
  salary_amount : Option Nat := none
  remote_work : Bool := false
  has_salary_info : Bool := false
  extracted_locations : List Str := []
  skills : List Str := []
  education : List Str := []
  benefits : List Str := []
  deriving DecidableEq, Repr

/-- An aggregated job-level result entering `_filter_jobs`. -/
structure AggJob where
  id : Str
  score : ℚ
  metadata : JobMeta
  deriving DecidableEq, Repr

/-- An output entry of `_filter_jobs`
(`{'id': ..., 'score': boosted, 'text': ..., 'metadata': ...}`). -/
structure FJob where
  id : Str
  score : ℚ
  text : Str
  metadata : JobMeta
  deriving DecidableEq, Repr

/-- The `SearchRequest` fields read by `_filter_jobs` (pydantic model of
api/models.py; list fields default to `[]`, the rest to `None`). -/
structure SearchRequest where
  locations : List Str := []
  required_skills : List Str := []
  preferred_skills : List Str := []
  exclude_keywords : List Str := []
  experience_level : Option Str := none
  min_experience_years : Option Nat := none
  max_experience_years : Option Nat := none
  min_salary : Option Nat := none
  max_salary : Option Nat := none
  remote_only : Option Bool := none
  has_salary_info : Option Bool := none
  required_education : List Str := []
  required_benefits : List Str := []
  deriving DecidableEq, Repr

/-- Python truthiness of an optional integer (both `None` and `0` are
falsy). -/
def truthyNat : Option Nat → Bool
  | none => false
  | some n => n != 0

/-- Python truthiness of an optional string (both `None` and `''` are
falsy). -/
def truthyStrO : Option Str → Bool
  | none => false
  | some s => !s.isEmpty

/-- Python truthiness of an optional boolean. -/
def truthyBoolO : Option Bool → Bool
  | none => false
  | some b => b

/-- Python `a or b` on optional integers (used for
`job_salary_min or job_salary_amount`). -/
def pyOrNat (a b : Option Nat) : Option Nat := if truthyNat a then a else b

/-- The `exclude_keywords` rule: any case-insensitive substring hit drops the
job (`none`); it is the first rule evaluated. -/
def ruleExclude (req : SearchRequest) (tl : Str) : Option Unit :=
  if req.exclude_keywords.any (fun kw => containsSub (lowerStr kw) tl) then none
  else some ()

/-- The `experience_level` rule: a set, non-matching extracted level drops;
a matching one boosts by 0.2; an absent extracted level passes unboosted. -/
def ruleExpLevel (req : SearchRequest) (m : JobMeta) : Option ℚ :=
  if truthyStrO req.experience_level then
    if truthyStrO m.experience_level ∧
        lowerStr (m.experience_level.getD []) ≠ lowerStr (req.experience_level.getD []) then
      none
    else if truthyStrO m.experience_level then some (q 2 10)
    else some (q 0 1)
  else some (q 0 1)

/-- The experience-years range rule (boost 0.15). -/
def ruleExpYears (req : SearchRequest) (m : JobMeta) : Option ℚ :=
  if truthyNat req.min_experience_years || truthyNat req.max_experience_years then
    if truthyNat m.experience_years then
      let y := m.experience_years.getD 0
      if truthyNat req.min_experience_years ∧ y < req.min_experience_years.getD 0 then none
      else if truthyNat req.max_experience_years ∧ req.max_experience_years.getD 0 < y then none
      else some (q 15 100)
    else some (q 0 1)
  else some (q 0 1)

/-- The salary-range overlap rule (boost 0.1). -/
def ruleSalary (req : SearchRequest) (m : JobMeta) : Option ℚ :=
  if truthyNat req.min_salary || truthyNat req.max_salary then
    let jmin := pyOrNat m.salary_min m.salary_amount
    let jmax := pyOrNat m.salary_max m.salary_amount
    if truthyNat jmin || truthyNat jmax then
      if truthyNat req.min_salary ∧ truthyNat jmax ∧ jmax.getD 0 < req.min_salary.getD 0 then
        none
      else if truthyNat req.max_salary ∧ truthyNat jmin ∧ req.max_salary.getD 0 < jmin.getD 0 then
        none
      else some (q 1 10)
    else some (q 0 1)
  else some (q 0 1)

/-- The `remote_only` rule (boost 0.2). -/
def ruleRemote (req : SearchRequest) (m : JobMeta) : Option ℚ :=
  if truthyBoolO req.remote_only then
    if m.remote_work then some (q 2 10) else none
  else some (q 0 1)

/-- The `has_salary_info` rule (boost 0.05). -/
def ruleHasSalary (req : SearchRequest) (m : JobMeta) : Option ℚ :=
  if truthyBoolO req.has_salary_info then
    if m.has_salary_info then some (q 5 100) else none
  else some (q 0 1)

/-- One requested location matches the job text or an extracted location. -/
def locationMatches (m : JobMeta) (tl : Str) (loc : Str) : Bool :=
  containsSub (lowerStr loc) tl ||
    m.extracted_locations.any (fun el => containsSub (lowerStr loc) (lowerStr el))

/-- The `locations` rule: OR-match, one boost of 0.15 at the first matching
location, drop when none matches. -/
def ruleLocations (req : SearchRequest) (m : JobMeta) (tl : Str) : Option ℚ :=
  if !req.locations.isEmpty then
    if req.locations.any (locationMatches m tl) then some (q 15 100) else none
  else some (q 0 1)

/-- One skill is present: substring of the lowered text, or an exact member
of the lowered extracted skills. -/
def skillPresent (m : JobMeta) (tl : Str) (sk : Str) : Bool :=
  containsSub (lowerStr sk) tl || (m.skills.map lowerStr).contains (lowerStr sk)

/-- The `required_skills` rule: AND-match, boost 0.25. -/
def ruleRequiredSkills (req : SearchRequest) (m : JobMeta) (tl : Str) : Option ℚ :=
  if !req.required_skills.isEmpty then
    let found := (req.required_skills.filter (skillPresent m tl)).length
    if found < req.required_skills.length then none else some (q 25 100)
  else some (q 0 1)

/-- The `preferred_skills` rule: never drops, 0.1 per matching entry of the
request list. -/
def rulePreferred (req : SearchRequest) (m : JobMeta) (tl : Str) : ℚ :=
  if !req.preferred_skills.isEmpty then
    mkRat ((req.preferred_skills.filter (skillPresent m tl)).length : Int) 1 * q 1 10
  else q 0 1

/-- The `required_education` rule: extracted-list containment with raw-text
fallback, boost 0.1. -/
def ruleEducation (req : SearchRequest) (m : JobMeta) (tl : Str) : Option ℚ :=
  if !req.required_education.isEmpty then
    let job_education := m.education.map lowerStr
    let education_match :=
      req.required_education.any fun re' =>
        job_education.any fun je => containsSub (lowerStr re') je
    let education_match' :=
      education_match ||
        req.required_education.any fun re' => containsSub (lowerStr re') tl
    if education_match' then some (q 1 10) else none
  else some (q 0 1)

/-- The `required_benefits` rule: every requested benefit must appear in the
text or an extracted benefit, boost 0.1. -/
def ruleBenefits (req : SearchRequest) (m : JobMeta) (tl : Str) : Option ℚ :=
  if !req.required_benefits.isEmpty then
    let job_benefits := m.benefits.map lowerStr
    let found :=
      (req.required_benefits.filter fun b =>
        containsSub (lowerStr b) tl ||
          job_benefits.any fun jb => containsSub (lowerStr b) jb).length
    if found < req.required_benefits.length then none else some (q 1 10)
  else some (q 0 1)

/-- The per-job body of the `_filter_jobs` loop up to the accumulated
`relevance_boost`: `none` models a `continue` (drop), `some b` the total
boost of a surviving job.  The rules are evaluated in source order; only
`rulePreferred` cannot drop. -/
def evalBoost (req : SearchRequest) (job : AggJob) : Option ℚ := do
  let m := job.metadata
  let tl := lowerStr m.text
  let _ ← ruleExclude req tl
  let b2 ← ruleExpLevel req m
  let b3 ← ruleExpYears req m
  let b4 ← ruleSalary req m
  let b5 ← ruleRemote req m
  let b6 ← ruleHasSalary req m
  let b7 ← ruleLocations req m tl
  let b8 ← ruleRequiredSkills req m tl
  let b9 := rulePreferred req m tl
  let b10 ← ruleEducation req m tl
  let b11 ← ruleBenefits req m tl
  return b2 + b3 + b4 + b5 + b6 + b7 + b8 + b9 + b10 + b11

/-- The output entry appended for a surviving job:
`boosted_score = min(1.0, score + relevance_boost)`. -/
def evalJob (req : SearchRequest) (job : AggJob) : Option FJob :=
  (evalBoost req job).map fun b =>
    { id := job.id
      score := qmin (q 1 1) (job.score + b)
      text := job.metadata.text
      metadata := job.metadata }

/-- Stable descending insertion by score (the element goes after earlier
elements of equal score), modelling Python's stable
`sort(key=score, reverse=True)`. -/
def insertDesc (x : FJob) : List FJob → List FJob
  | [] => [x]
  | y :: ys => if x.score ≤ y.score then y :: insertDesc x ys else x :: y :: ys

/-- Stable descending sort by score. -/
def sortDescFJ : List FJob → List FJob
  | [] => []
  | x :: xs => insertDesc x (sortDescFJ xs)

/-- `SearchService._filter_jobs`: evaluate each job, sort the survivors by
boosted score descending, truncate to the top 50. -/
def filterJobs (jobs : List AggJob) (req : SearchRequest) : List FJob :=
  (sortDescFJ (jobs.filterMap (evalJob req))).take 50

/-!
A segment view of `identify_sections`, used to state and prove its
overwrite behaviour: the line loop is equivalent to first decomposing the
stripped non-empty lines into header-delimited segments and then folding
the dictionary assignment over the segments with non-empty content.
-/

/-- Decompose lines into `(section name, content lines)` segments: a header
line closes the current segment and opens a new one; other stripped
non-empty lines extend the current segment. -/
def segsAux : Str → List Str → List Str → List (Str × List Str)
  | cur, acc, [] => [(cur, acc)]
  | cur, acc, rawLine :: rest =>
    let line := pyStrip rawLine
    if line.isEmpty then segsAux cur acc rest
    else
      match sectionHeaderType line with
      | some ty => (cur, acc) :: segsAux ty [] rest
      | none => segsAux cur (acc ++ [line]) rest

/-- The segments of a text, starting in the `summary` section. -/
def segsOf (text : Str) : List (Str × List Str) :=
  segsAux (strOf "summary") [] (splitLines text)

/-- The dictionary update a segment performs: segments with empty content
are not saved, others assign (and so overwrite) their section's entry. -/
def applySeg (m : List (Str × Str)) (p : Str × List Str) : List (Str × Str) :=
  if p.2.isEmpty then m else dictSet m p.1 (pyStrip (joinSep '\n' p.2))

/-- Total word count of a text, as `len(text.split())`. -/
def wc (s : Str) : Nat := (pyWords s).length

end JobSearch

namespace JobSearch

/-! ### Basic lemmas about the string model -/

theorem splitOnPred_ne_nil (p : Char → Bool) (s : Str) : splitOnPred p s ≠ [] := by
  cases s with
  | nil => simp [splitOnPred]
  | cons c cs =>
    simp only [splitOnPred]
    split
    · simp
    · cases h : splitOnPred p cs <;> simp

theorem splitOnPred_append (p : Char → Bool) (c : Char) (hc : p c = true) :
    ∀ a b : Str, splitOnPred p (a ++ c :: b) = splitOnPred p a ++ splitOnPred p b := by
  intro a b
  induction a with
  | nil => simp [splitOnPred, hc]
  | cons x a' ih =>
    by_cases hx : p x
    · simp [splitOnPred, hx, ih]
    · have hne := splitOnPred_ne_nil p a'
      simp only [List.cons_append, splitOnPred, hx, Bool.false_eq_true, if_false,
        List.append_eq]
      rw [ih]
      cases h : splitOnPred p a' with
      | nil => exact absurd h hne
      | cons w rest => simp

theorem pyWords_append (c : Char) (hc : isSpace c = true) (a b : Str) :
    pyWords (a ++ c :: b) = pyWords a ++ pyWords b := by
  simp [pyWords, splitOnPred_append isSpace c hc, List.filter_append]

theorem pyWords_all_space (s : Str) (h : ∀ x ∈ s, isSpace x = true) :
    pyWords s = [] := by
  induction s with
  | nil => simp [pyWords, splitOnPred]
  | cons c cs ih =>
    have hc : isSpace c = true := h c (by simp)
    have : pyWords (([] : Str) ++ c :: cs) = pyWords [] ++ pyWords cs :=
      pyWords_append c hc [] cs
    simp only [List.nil_append] at this
    rw [this, ih fun x hx => h x (by simp [hx])]
    simp [pyWords, splitOnPred]

theorem pyWords_append_spaces (a t : Str) (h : ∀ x ∈ t, isSpace x = true) :
    pyWords (a ++ t) = pyWords a := by
  induction t generalizing a with
  | nil => simp
  | cons c t' ih =>
    have hc : isSpace c = true := h c (by simp)
    rw [pyWords_append c hc a t', pyWords_all_space t' fun x hx => h x (by simp [hx])]
    simp

theorem pyWords_dropWhile_space (s : Str) :
    pyWords (s.dropWhile isSpace) = pyWords s := by
  induction s with
  | nil => simp
  | cons c cs ih =>
    by_cases hc : isSpace c
    · rw [List.dropWhile_cons_of_pos hc, ih]
      have : pyWords (([] : Str) ++ c :: cs) = pyWords [] ++ pyWords cs :=
        pyWords_append c hc [] cs
      simp only [List.nil_append] at this
      rw [this]
      simp [pyWords, splitOnPred]
    · rw [List.dropWhile_cons_of_neg hc]

theorem pyWords_strip (s : Str) : pyWords (pyStrip s) = pyWords s := by
  unfold pyStrip
  set u := s.dropWhile isSpace with hu
  have hdecomp : u = (u.reverse.dropWhile isSpace).reverse ++ (u.reverse.takeWhile isSpace).reverse := by
    rw [← List.reverse_append, List.takeWhile_append_dropWhile, List.reverse_reverse]
  have hsp : ∀ x ∈ (u.reverse.takeWhile isSpace).reverse, isSpace x = true := by
    intro x hx
    simp only [List.mem_reverse] at hx
    exact List.mem_takeWhile_imp hx
  calc pyWords (u.reverse.dropWhile isSpace).reverse
      = pyWords ((u.reverse.dropWhile isSpace).reverse ++ (u.reverse.takeWhile isSpace).reverse) :=
        (pyWords_append_spaces _ _ hsp).symm
    _ = pyWords u := by rw [← hdecomp]
    _ = pyWords s := pyWords_dropWhile_space s

theorem pyWords_joinSep_nl (ls : List Str) :
    pyWords (joinSep '\n' ls) = (ls.map pyWords).flatten := by
  induction ls with
  | nil => simp [joinSep, pyWords, splitOnPred]
  | cons l ls ih =>
    cases ls with
    | nil => simp [joinSep]
    | cons l' ls' =>
      rw [joinSep, pyWords_append '\n' (by simp [isSpace]) l (joinSep '\n' (l' :: ls')), ih]
      simp

theorem joinSep_splitOnPred (sep : Char) (p : Char → Bool)
    (hp : ∀ c, p c = true ↔ c = sep) (s : Str) :
    joinSep sep (splitOnPred p s) = s := by
  induction s with
  | nil => rfl
  | cons c cs ih =>
    have hne := splitOnPred_ne_nil p cs
    by_cases hc : p c
    · have hceq : c = sep := (hp c).mp hc
      subst hceq
      simp only [splitOnPred, hc, if_true]
      cases h : splitOnPred p cs with
      | nil => exact absurd h hne
      | cons w rest =>
        rw [h] at ih
        simp only [joinSep]
        simpa using ih
    · simp only [splitOnPred, hc, Bool.false_eq_true, if_false]
      cases h : splitOnPred p cs with
      | nil => exact absurd h hne
      | cons w rest =>
        rw [h] at ih
        cases rest with
        | nil =>
          simp only [joinSep] at ih ⊢
          simp [ih]
        | cons w' rest' =>
          simp only [joinSep] at ih ⊢
          simp [ih]

theorem joinSep_splitLines (s : Str) : joinSep '\n' (splitLines s) = s := by
  unfold splitLines
  exact joinSep_splitOnPred '\n' _ (fun c => by simp) s

theorem wc_splitLines (s : Str) :
    ((splitLines s).map wc).sum = wc s := by
  have h1 : pyWords s = ((splitLines s).map pyWords).flatten := by
    rw [← pyWords_joinSep_nl, joinSep_splitLines]
  simp only [wc, h1, List.length_flatten, List.map_map]
  rfl

theorem wc_strip (s : Str) : wc (pyStrip s) = wc s := by
  simp [wc, pyWords_strip]

theorem wc_joinSep_nl (ls : List Str) : wc (joinSep '\n' ls) = (ls.map wc).sum := by
  simp only [wc, pyWords_joinSep_nl, List.length_flatten, List.map_map]
  rfl

/-! ### The segment view of identify_sections -/

theorem identifySectionsLoop_eq_foldl (lines : List Str) :
    ∀ (secs : List (Str × Str)) (cur : Str) (acc : List Str),
      identifySectionsLoop lines secs cur acc = (segsAux cur acc lines).foldl applySeg secs := by
  induction lines with
  | nil =>
    intro secs cur acc
    rfl
  | cons rawLine rest ih =>
    intro secs cur acc
    simp only [identifySectionsLoop, segsAux]
    by_cases hempty : (pyStrip rawLine).isEmpty
    · simp only [hempty, if_true, ih]
    · simp only [hempty, Bool.false_eq_true, if_false]
      cases hty : sectionHeaderType (pyStrip rawLine) with
      | some ty =>
        simp only [List.foldl_cons, ih]
        rfl
      | none => simp only [ih]

theorem dictLookup_dictSet (m : List (Str × Str)) (k k' : Str) (v : Str) :
    dictLookup (dictSet m k' v) k = if k' = k then some v else dictLookup m k := by
  induction m with
  | nil => simp [dictSet, dictLookup]
  | cons p rest ih =>
    obtain ⟨pk, pv⟩ := p
    by_cases h1 : pk = k'
    · subst h1
      simp only [dictSet, if_pos rfl, dictLookup]
      by_cases h2 : pk = k <;> simp [h2]
    · simp only [dictSet, if_neg h1, dictLookup]
      by_cases h2 : pk = k
      · subst h2
        have : ¬k' = pk := fun h => h1 h.symm
        simp [this]
      · simp [h2, ih]

theorem getLast?_cons_of_ne_nil {α : Type} (a : α) (l : List α) (h : l ≠ []) :
    (a :: l).getLast? = l.getLast? := by
  cases l with
  | nil => exact absurd rfl h
  | cons b t => simp [List.getLast?]

theorem getLast?_cons_isSome {α : Type} (a : α) (l : List α) :
    ∃ x, (a :: l).getLast? = some x := by
  induction l generalizing a with
  | nil => exact ⟨a, rfl⟩
  | cons b t ih =>
    obtain ⟨x, hx⟩ := ih b
    exact ⟨x, by rw [getLast?_cons_of_ne_nil a (b :: t) (by simp), hx]⟩

/-- Folding the segment assignments: the final entry of key `k` is the
content of the last segment for `k` with non-empty content, and keys with
no such segment keep their prior entry. -/
theorem dictLookup_foldl_applySeg (ps : List (Str × List Str)) :
    ∀ (m : List (Str × Str)) (k : Str),
      dictLookup (ps.foldl applySeg m) k =
        match (ps.filter fun p => decide (p.1 = k) && !p.2.isEmpty).getLast? with
        | some p => some (pyStrip (joinSep '\n' p.2))
        | none => dictLookup m k := by
  induction ps with
  | nil => intro m k; rfl
  | cons p ps ih =>
    intro m k
    simp only [List.foldl_cons, List.filter_cons]
    rw [ih]
    by_cases hmatch : (decide (p.1 = k) && !p.2.isEmpty) = true
    · have hk : p.1 = k := of_decide_eq_true ((Bool.and_eq_true _ _).mp hmatch).1
      have hne : p.2.isEmpty = false := by
        have := ((Bool.and_eq_true _ _).mp hmatch).2
        simpa using this
      simp only [hmatch, if_true]
      cases hfl : (ps.filter fun p => decide (p.1 = k) && !p.2.isEmpty) with
      | nil =>
        simp only [hfl, applySeg, hne, Bool.false_eq_true, if_false,
          dictLookup_dictSet, hk, if_pos rfl]
        rfl
      | cons w ws =>
        obtain ⟨x, hx⟩ := getLast?_cons_isSome w ws
        rw [getLast?_cons_of_ne_nil p (w :: ws) (by simp), hx]
    · simp only [hmatch, Bool.false_eq_true, if_false]
      cases hfl : (ps.filter fun p => decide (p.1 = k) && !p.2.isEmpty) with
      | nil =>
        by_cases hne : p.2.isEmpty
        · simp [applySeg, hne]
        · have hk : ¬p.1 = k := by
            intro hkk
            exact hmatch (by simp [hkk, hne])
          simp [applySeg, hne, dictLookup_dictSet, hk]
      | cons w ws =>
        obtain ⟨x, hx⟩ := getLast?_cons_isSome w ws
        rw [hx]

/-- The sum of the word counts of the dictionary's contents grows by at most
the word count of an assigned value. -/
theorem sumVals_dictSet (m : List (Str × Str)) (k v : Str) :
    ((dictSet m k v).map (fun p => wc p.2)).sum ≤ (m.map (fun p => wc p.2)).sum + wc v := by
  induction m with
  | nil => simp [dictSet]
  | cons p rest ih =>
    obtain ⟨pk, pv⟩ := p
    simp only [dictSet]
    by_cases h : pk = k
    · simp only [if_pos h, List.map_cons, List.sum_cons]
      omega
    · simp only [if_neg h, List.map_cons, List.sum_cons]
      omega

theorem sumVals_foldl_applySeg (ps : List (Str × List Str)) :
    ∀ m : List (Str × Str),
      ((ps.foldl applySeg m).map (fun p => wc p.2)).sum ≤
        (m.map (fun p => wc p.2)).sum + (ps.map (fun p => (p.2.map wc).sum)).sum := by
  induction ps with
  | nil => intro m; simp
  | cons p ps ih =>
    intro m
    simp only [List.foldl_cons, List.map_cons, List.sum_cons]
    calc ((ps.foldl applySeg (applySeg m p)).map (fun p => wc p.2)).sum
        ≤ ((applySeg m p).map (fun p => wc p.2)).sum +
            (ps.map (fun p => (p.2.map wc).sum)).sum := ih _
      _ ≤ (m.map (fun p => wc p.2)).sum + (p.2.map wc).sum +
            (ps.map (fun p => (p.2.map wc).sum)).sum := by
          have : ((applySeg m p).map (fun p => wc p.2)).sum ≤
              (m.map (fun p => wc p.2)).sum + (p.2.map wc).sum := by
            unfold applySeg
            split
            · omega
            · calc ((dictSet m p.1 (pyStrip (joinSep '\n' p.2))).map (fun p => wc p.2)).sum
                  ≤ (m.map (fun p => wc p.2)).sum + wc (pyStrip (joinSep '\n' p.2)) :=
                    sumVals_dictSet m p.1 _
                _ = (m.map (fun p => wc p.2)).sum + (p.2.map wc).sum := by
                    rw [wc_strip, wc_joinSep_nl]
          omega
      _ = (m.map (fun p => wc p.2)).sum +
            ((p.2.map wc).sum + (ps.map (fun p => (p.2.map wc).sum)).sum) := by omega

/-- The segments' content words are drawn from distinct input lines, so their
total is bounded by the input lines' total word count (plus the carried
accumulator). -/
theorem segsAux_words_le (lines : List Str) :
    ∀ (cur : Str) (acc : List Str),
      ((segsAux cur acc lines).map (fun p => (p.2.map wc).sum)).sum ≤
        (acc.map wc).sum + (lines.map wc).sum := by
  induction lines with
  | nil => intro cur acc; simp [segsAux]
  | cons rawLine rest ih =>
    intro cur acc
    simp only [segsAux, List.map_cons, List.sum_cons]
    by_cases hempty : (pyStrip rawLine).isEmpty
    · simp only [hempty, if_true]
      calc ((segsAux cur acc rest).map (fun p => (p.2.map wc).sum)).sum
          ≤ (acc.map wc).sum + (rest.map wc).sum := ih cur acc
        _ ≤ (acc.map wc).sum + (wc rawLine + (rest.map wc).sum) := by omega
    · simp only [hempty, Bool.false_eq_true, if_false]
      cases hty : sectionHeaderType (pyStrip rawLine) with
      | some ty =>
        simp only [List.map_cons, List.sum_cons]
        calc (acc.map wc).sum + ((segsAux ty [] rest).map (fun p => (p.2.map wc).sum)).sum
            ≤ (acc.map wc).sum + (([] : List Str).map wc).sum + (rest.map wc).sum := by
              have := ih ty []
              omega
          _ ≤ (acc.map wc).sum + (wc rawLine + (rest.map wc).sum) := by
              simp only [List.map_nil, List.sum_nil]
              omega
      | none =>
        calc ((segsAux cur (acc ++ [pyStrip rawLine]) rest).map (fun p => (p.2.map wc).sum)).sum
            ≤ ((acc ++ [pyStrip rawLine]).map wc).sum + (rest.map wc).sum :=
              ih cur (acc ++ [pyStrip rawLine])
          _ = (acc.map wc).sum + wc (pyStrip rawLine) + (rest.map wc).sum := by
              simp
          _ = (acc.map wc).sum + (wc rawLine + (rest.map wc).sum) := by
              rw [wc_strip]; omega

/-- The contents stored by `identify_sections` jointly never exceed the
text's total word count. -/
theorem identifySections_sumVals (text : Str) :
    (((identifySections text).map (fun p => wc p.2)).sum) ≤ wc text := by
  unfold identifySections
  rw [identifySectionsLoop_eq_foldl]
  calc ((((segsAux (strOf "summary") [] (splitLines text))).foldl applySeg [] |>.map
        (fun p => wc p.2)).sum)
      ≤ (([] : List (Str × Str)).map (fun p => wc p.2)).sum +
          (((segsAux (strOf "summary") [] (splitLines text)).map
            (fun p => (p.2.map wc).sum)).sum) := sumVals_foldl_applySeg _ []
    _ ≤ (([] : List Str).map wc).sum + ((splitLines text).map wc).sum := by
        have := segsAux_words_le (splitLines text) (strOf "summary") []
        simpa using this
    _ = wc text := by simpa using wc_splitLines text

/-! ### identify_sections never stores an empty content string -/

theorem head_dropWhile_not (p : Char → Bool) (s : Str) (c : Char) (t : Str)
    (h : s.dropWhile p = c :: t) : p c = false := by
  induction s with
  | nil => simp at h
  | cons x xs ih =>
    by_cases hx : p x
    · rw [List.dropWhile_cons_of_pos hx] at h
      exact ih h
    · rw [List.dropWhile_cons_of_neg hx] at h
      injection h with h1 _
      subst h1
      simpa using hx

theorem pyStrip_head_nonspace (s : Str) (c : Char) (t : Str)
    (h : pyStrip s = c :: t) : isSpace c = false := by
  have hdecomp : s.dropWhile isSpace =
      pyStrip s ++ ((s.dropWhile isSpace).reverse.takeWhile isSpace).reverse := by
    unfold pyStrip
    rw [← List.reverse_append, List.takeWhile_append_dropWhile, List.reverse_reverse]
  rw [h] at hdecomp
  exact head_dropWhile_not isSpace s c _ hdecomp

theorem pyWords_cons_space (c : Char) (cs : Str) (hc : isSpace c = true) :
    pyWords (c :: cs) = pyWords cs := by
  have := pyWords_append c hc [] cs
  simpa using this

theorem pyWords_cons_nonspace_ne_nil (c : Char) (cs : Str) (hc : isSpace c = false) :
    pyWords (c :: cs) ≠ [] := by
  unfold pyWords splitOnPred
  simp only [hc, Bool.false_eq_true, if_false]
  cases h : splitOnPred isSpace cs with
  | nil => simp
  | cons w rest => simp

theorem pyWords_eq_nil_all_space (s : Str) (h : pyWords s = []) :
    ∀ c ∈ s, isSpace c = true := by
  induction s with
  | nil => simp
  | cons c cs ih =>
    by_cases hc : isSpace c
    · rw [pyWords_cons_space c cs hc] at h
      intro x hx
      rcases List.mem_cons.mp hx with h1 | h1
      · subst h1; exact hc
      · exact ih h x h1
    · exact absurd h (pyWords_cons_nonspace_ne_nil c cs (by simpa using hc))

theorem pyStrip_words_ne_nil (r : Str) (h : ¬(pyStrip r).isEmpty = true) :
    pyWords (pyStrip r) ≠ [] := by
  cases hs : pyStrip r with
  | nil => rw [hs] at h; simp at h
  | cons c t =>
    have hc := pyStrip_head_nonspace r c t hs
    exact pyWords_cons_nonspace_ne_nil c t hc

theorem applySeg_value_ne_nil (ls : List Str) (hne : ls ≠ [])
    (hP : ∀ w ∈ ls, (∃ r, w = pyStrip r) ∧ ¬w.isEmpty = true) :
    ¬(pyStrip (joinSep '\n' ls)).isEmpty = true := by
  cases ls with
  | nil => exact absurd rfl hne
  | cons w rest =>
    obtain ⟨⟨r, hw⟩, hwne⟩ := hP w (by simp)
    have h2 : pyWords w ≠ [] := by
      rw [hw] at hwne ⊢
      exact pyStrip_words_ne_nil r hwne
    intro hemp
    have hnil : pyStrip (joinSep '\n' (w :: rest)) = [] := by
      simpa [List.isEmpty_iff] using hemp
    have h1 : pyWords (pyStrip (joinSep '\n' (w :: rest))) =
        pyWords w ++ (rest.map pyWords).flatten := by
      rw [pyWords_strip, pyWords_joinSep_nl]
      simp
    rw [hnil] at h1
    have : pyWords ([] : Str) = [] := rfl
    rw [this] at h1
    exact h2 (List.append_eq_nil.mp h1.symm).1

theorem mem_dictSet (m : List (Str × Str)) (k v : Str) (p : Str × Str)
    (h : p ∈ dictSet m k v) : p ∈ m ∨ p = (k, v) := by
  induction m with
  | nil => simpa [dictSet] using h
  | cons e rest ih =>
    obtain ⟨ek, ev⟩ := e
    by_cases he : ek = k
    · subst he
      simp only [dictSet, if_pos rfl] at h
      rcases List.mem_cons.mp h with h1 | h1
      · right; exact h1
      · left; simp [h1]
    · simp only [dictSet, if_neg he] at h
      rcases List.mem_cons.mp h with h1 | h1
      · left; simp [h1]
      · rcases ih h1 with h2 | h2
        · left; simp [h2]
        · right; exact h2

theorem foldl_applySeg_values (ps : List (Str × List Str)) :
    ∀ m : List (Str × Str), (∀ p ∈ m, ¬p.2.isEmpty = true) →
      (∀ sp ∈ ps, ∀ w ∈ sp.2, (∃ r, w = pyStrip r) ∧ ¬w.isEmpty = true) →
      ∀ p ∈ ps.foldl applySeg m, ¬p.2.isEmpty = true := by
  induction ps with
  | nil =>
    intro m hm _ p hp
    exact hm p hp
  | cons sp ps ih =>
    intro m hm hps p hp
    simp only [List.foldl_cons] at hp
    refine ih (applySeg m sp) ?_ (fun x hx => hps x (by simp [hx])) p hp
    intro e he
    unfold applySeg at he
    by_cases hemp : sp.2.isEmpty
    · rw [if_pos hemp] at he
      exact hm e he
    · rw [if_neg hemp] at he
      rcases mem_dictSet m sp.1 _ e he with h1 | h1
      · exact hm e h1
      · subst h1
        exact applySeg_value_ne_nil sp.2
          (by intro hnil; exact hemp (by simp [hnil]))
          (hps sp (by simp))

theorem segsAux_content_prop (lines : List Str) :
    ∀ (cur : Str) (acc : List Str),
      (∀ w ∈ acc, (∃ r, w = pyStrip r) ∧ ¬w.isEmpty = true) →
      ∀ p ∈ segsAux cur acc lines, ∀ w ∈ p.2, (∃ r, w = pyStrip r) ∧ ¬w.isEmpty = true := by
  induction lines with
  | nil =>
    intro cur acc hacc p hp w hw
    simp only [segsAux, List.mem_singleton] at hp
    subst hp
    exact hacc w hw
  | cons rawLine rest ih =>
    intro cur acc hacc p hp w hw
    simp only [segsAux] at hp
    by_cases hempty : (pyStrip rawLine).isEmpty
    · rw [if_pos hempty] at hp
      exact ih cur acc hacc p hp w hw
    · rw [if_neg hempty] at hp
      cases hty : sectionHeaderType (pyStrip rawLine) with
      | some ty =>
        rw [hty] at hp
        rcases List.mem_cons.mp hp with h1 | h1
        · subst h1
          exact hacc w hw
        · exact ih ty [] (by simp) p h1 w hw
      | none =>
        rw [hty] at hp
        refine ih cur (acc ++ [pyStrip rawLine]) ?_ p hp w hw
        intro x hx
        rcases List.mem_append.mp hx with h1 | h1
        · exact hacc x h1
        · have : x = pyStrip rawLine := by simpa using h1
          subst this
          exact ⟨⟨rawLine, rfl⟩, hempty⟩

/-- Every content stored by `identify_sections` is a non-empty string. -/
theorem identifySections_values_ne_nil (text : Str) :
    ∀ p ∈ identifySections text, ¬p.2.isEmpty = true := by
  unfold identifySections
  rw [identifySectionsLoop_eq_foldl]
  exact foldl_applySeg_values _ [] (by simp)
    (segsAux_content_prop (splitLines text) (strOf "summary") [] (by simp))

/-! ### Termination of the overlapping loops and section-chunk invariants -/

theorem splitLongSectionLoop_isSome (c : Cfg) (ty job : Str) (base : Nat)
    (words : List Str) (hstep : 0 < c.max_chunk_size - c.overlap_size) :
    ∀ (fuel start sub : Nat), words.length - start < fuel →
      (splitLongSectionLoop c ty job base words fuel start sub).isSome = true := by
  intro fuel
  induction fuel with
  | zero => intro start sub h; omega
  | succ f ih =>
    intro start sub h
    by_cases hlt : start < words.length
    · have hfuel : words.length - (start + (c.max_chunk_size - c.overlap_size)) < f := by
        omega
      have hrec := ih (start + (c.max_chunk_size - c.overlap_size)) (sub + 1) hfuel
      cases hr : splitLongSectionLoop c ty job base words f
          (start + (c.max_chunk_size - c.overlap_size)) (sub + 1) with
      | some rest => simp [splitLongSectionLoop, hlt, hr]
      | none => rw [hr] at hrec; simp at hrec
    · simp [splitLongSectionLoop, hlt]

theorem splitLongSection_isSome (c : Cfg) (text ty job : Str) (base : Nat)
    (hov : c.overlap_size < c.max_chunk_size) :
    (splitLongSection c text ty job base).isSome = true := by
  unfold splitLongSection
  exact splitLongSectionLoop_isSome c ty job base (pyWords text) (by omega) _ 0 0 (by omega)

theorem overlappingLoop_isSome (c : Cfg) (job : Str) (words : List Str)
    (hstep : 0 < c.max_chunk_size - c.overlap_size) :
    ∀ (fuel start idx : Nat), words.length - start < fuel →
      (overlappingLoop c job words fuel start idx).isSome = true := by
  intro fuel
  induction fuel with
  | zero => intro start idx h; omega
  | succ f ih =>
    intro start idx h
    by_cases hlt : start < words.length
    · have hfuel : words.length - (start + (c.max_chunk_size - c.overlap_size)) < f := by
        omega
      have hrec := ih (start + (c.max_chunk_size - c.overlap_size)) (idx + 1) hfuel
      cases hr : overlappingLoop c job words f
          (start + (c.max_chunk_size - c.overlap_size)) (idx + 1) with
      | some rest => simp [overlappingLoop, hlt, hr]
      | none => rw [hr] at hrec; simp at hrec
    · simp [overlappingLoop, hlt]

theorem createOverlappingChunks_isSome (c : Cfg) (text job : Str)
    (hov : c.overlap_size < c.max_chunk_size) :
    (createOverlappingChunks c text job).isSome = true := by
  unfold createOverlappingChunks
  by_cases hle : (pyWords text).length ≤ c.max_chunk_size
  · simp [hle]
  · simp only [hle, Bool.false_eq_true, if_false]
    exact overlappingLoop_isSome c job (pyWords text) (by omega) _ 0 0 (by omega)

theorem sectionChunksCore_isSome (c : Cfg) (job : Str)
    (hov : c.overlap_size < c.max_chunk_size) :
    ∀ items : List (Nat × Str × Str), (sectionChunksCore c job items).isSome = true := by
  intro items
  induction items with
  | nil => rfl
  | cons it rest ih =>
    obtain ⟨i, ty, content⟩ := it
    simp only [sectionChunksCore]
    by_cases h1 : content.isEmpty
    · simpa [h1] using ih
    · simp only [h1, Bool.false_eq_true, if_false]
      by_cases h2 : (pyWords content).length < c.min_chunk_size
      · simpa [h2] using ih
      · simp only [h2, if_false]
        by_cases h3 : (pyWords content).length ≤ c.max_chunk_size
        · simp only [h3, if_true]
          cases hr : sectionChunksCore c job rest with
          | some tail => simp
          | none => rw [hr] at ih; simp at ih
        · simp only [h3, Bool.false_eq_true, if_false]
          have hs := splitLongSection_isSome c content ty job i hov
          cases hsub : splitLongSection c content ty job i with
          | some subs =>
            cases hr : sectionChunksCore c job rest with
            | some tail => simp
            | none => rw [hr] at ih; simp at ih
          | none => rw [hsub] at hs; simp at hs

theorem sectionChunksCore_sum (c : Cfg) (job : Str) :
    ∀ items : List (Nat × Str × Str),
      (∀ p ∈ items, wc p.2.2 ≤ c.max_chunk_size) →
      ∃ ch, sectionChunksCore c job items = some ch ∧
        (ch.map TextChunk.word_count).sum ≤ (items.map (fun p => wc p.2.2)).sum := by
  intro items
  induction items with
  | nil => intro _; exact ⟨[], rfl, by simp⟩
  | cons it rest ih =>
    intro hmax
    obtain ⟨i, ty, content⟩ := it
    obtain ⟨ch, hch, hsum⟩ := ih fun p hp => hmax p (by simp [hp])
    have hcmax : wc content ≤ c.max_chunk_size := by
      have := hmax (i, ty, content) (by simp)
      simpa using this
    simp only [sectionChunksCore, List.map_cons, List.sum_cons]
    by_cases h1 : content.isEmpty
    · exact ⟨ch, by simpa [h1] using hch, by omega⟩
    · simp only [h1, Bool.false_eq_true, if_false]
      by_cases h2 : (pyWords content).length < c.min_chunk_size
      · exact ⟨ch, by simpa [h2] using hch, by omega⟩
      · simp only [h2, if_false]
        have h3 : (pyWords content).length ≤ c.max_chunk_size := hcmax
        simp only [h3, if_true, hch]
        refine ⟨_, rfl, ?_⟩
        simp only [List.map_cons, List.sum_cons]
        have : wc content = (pyWords content).length := rfl
        omega

theorem sectionChunksCore_indices (c : Cfg) (job : Str) :
    ∀ items : List (Nat × Str × Str),
      (∀ p ∈ items, ¬p.2.2.isEmpty = true ∧
        c.min_chunk_size ≤ wc p.2.2 ∧ wc p.2.2 ≤ c.max_chunk_size) →
      ∃ ch, sectionChunksCore c job items = some ch ∧
        ch.map TextChunk.chunk_index = items.map Prod.fst := by
  intro items
  induction items with
  | nil => intro _; exact ⟨[], rfl, by simp⟩
  | cons it rest ih =>
    intro hgood
    obtain ⟨i, ty, content⟩ := it
    obtain ⟨ch, hch, hidx⟩ := ih fun p hp => hgood p (by simp [hp])
    obtain ⟨hne, hmin, hmax⟩ := hgood (i, ty, content) (by simp)
    have hmin' : c.min_chunk_size ≤ (pyWords content).length := hmin
    have hmax' : (pyWords content).length ≤ c.max_chunk_size := hmax
    simp only [sectionChunksCore]
    have h1 : content.isEmpty = false := by simpa using hne
    simp only [h1, Bool.false_eq_true, if_false]
    have h2 : ¬(pyWords content).length < c.min_chunk_size := by omega
    simp only [h2, if_false]
    have h3 : (pyWords content).length ≤ c.max_chunk_size := hmax'
    simp only [h3, if_true, hch]
    exact ⟨_, rfl, by simp [hidx]⟩

theorem mem_enumFrom_snd {α : Type} (l : List α) :
    ∀ (n : Nat) (p : Nat × α), p ∈ List.enumFrom n l → p.2 ∈ l := by
  induction l with
  | nil => intro n p hp; simp at hp
  | cons x xs ih =>
    intro n p hp
    rw [List.enumFrom_cons] at hp
    rcases List.mem_cons.mp hp with h1 | h1
    · subst h1; simp
    · simp [ih (n + 1) p h1]

theorem mem_enum_snd {α : Type} (l : List α) (p : Nat × α) (hp : p ∈ l.enum) :
    p.2 ∈ l :=
  mem_enumFrom_snd l 0 p hp

/-! ### Aggregation-score arithmetic -/

theorem le_qmax_left (a b : ℚ) : a ≤ qmax a b := by
  unfold qmax
  split <;> linarith

theorem le_qmax_right (a b : ℚ) : b ≤ qmax a b := by
  unfold qmax
  split <;> linarith

theorem qmin_le_left (a b : ℚ) : qmin a b ≤ a := by
  unfold qmin
  split <;> linarith

theorem qmin_le_right (a b : ℚ) : qmin a b ≤ b := by
  unfold qmin
  split <;> linarith

theorem le_foldl_qmax (l : List ℚ) : ∀ a : ℚ, a ≤ l.foldl qmax a := by
  induction l with
  | nil => intro a; simp
  | cons x xs ih =>
    intro a
    simp only [List.foldl_cons]
    exact le_trans (le_qmax_left a x) (ih (qmax a x))

theorem mem_le_foldl_qmax (l : List ℚ) : ∀ (a x : ℚ), x ∈ l → x ≤ l.foldl qmax a := by
  induction l with
  | nil => intro a x hx; simp at hx
  | cons y ys ih =>
    intro a x hx
    rcases List.mem_cons.mp hx with h | h
    · subst h
      simp only [List.foldl_cons]
      exact le_trans (le_qmax_right a x) (le_foldl_qmax ys (qmax a x))
    · simp only [List.foldl_cons]
      exact ih (qmax a y) x h

theorem foldl_qmin_le (l : List ℚ) : ∀ a : ℚ, l.foldl qmin a ≤ a := by
  induction l with
  | nil => intro a; simp
  | cons x xs ih =>
    intro a
    simp only [List.foldl_cons]
    exact le_trans (ih (qmin a x)) (qmin_le_left a x)

theorem foldl_qmin_le_mem (l : List ℚ) : ∀ (a x : ℚ), x ∈ l → l.foldl qmin a ≤ x := by
  induction l with
  | nil => intro a x hx; simp at hx
  | cons y ys ih =>
    intro a x hx
    rcases List.mem_cons.mp hx with h | h
    · subst h
      simp only [List.foldl_cons]
      exact le_trans (foldl_qmin_le ys (qmin a x)) (qmin_le_right a x)
    · simp only [List.foldl_cons]
      exact ih (qmin a y) x h

theorem mem_le_pyMaxD (l : List ℚ) (x : ℚ) (hx : x ∈ l) : x ≤ pyMaxD l := by
  cases l with
  | nil => simp at hx
  | cons y ys =>
    rcases List.mem_cons.mp hx with h | h
    · subst h
      exact le_foldl_qmax ys x
    · exact mem_le_foldl_qmax ys y x h

theorem pyMinD_le_mem (l : List ℚ) (x : ℚ) (hx : x ∈ l) : pyMinD l ≤ x := by
  cases l with
  | nil => simp at hx
  | cons y ys =>
    rcases List.mem_cons.mp hx with h | h
    · subst h
      exact foldl_qmin_le ys x
    · exact foldl_qmin_le_mem ys y x h

theorem sum_le_length_mul (l : List ℚ) (M : ℚ) (h : ∀ x ∈ l, x ≤ M) :
    l.sum ≤ l.length * M := by
  have := List.sum_le_card_nsmul l M h
  simpa [nsmul_eq_mul] using this

theorem length_mul_le_sum (l : List ℚ) (m : ℚ) (h : ∀ x ∈ l, m ≤ x) :
    l.length * m ≤ l.sum := by
  induction l with
  | nil => simp
  | cons x xs ih =>
    have hx := h x (by simp)
    have hxs := ih fun y hy => h y (by simp [hy])
    simp only [List.length_cons, List.sum_cons, Nat.cast_add, Nat.cast_one]
    have : ((xs.length : ℚ) + 1) * m = xs.length * m + m := by ring
    rw [this]
    linarith

theorem mkRat_natCast_one (n : Nat) : mkRat n 1 = (n : ℚ) := by
  rw [Rat.mkRat_eq_div]
  norm_num

theorem pyAvg_le_pyMaxD (l : List ℚ) (h : l ≠ []) : pyAvg l ≤ pyMaxD l := by
  have hlen : 0 < l.length := List.length_pos.mpr h
  have hsum : l.sum ≤ l.length * pyMaxD l :=
    sum_le_length_mul l (pyMaxD l) (fun x hx => mem_le_pyMaxD l x hx)
  unfold pyAvg
  rw [if_neg (by simpa [List.isEmpty_iff] using h), mkRat_natCast_one]
  have hpos : (0 : ℚ) < (l.length : ℚ) := by positivity
  rw [div_le_iff₀ hpos]
  calc l.sum ≤ l.length * pyMaxD l := hsum
    _ = pyMaxD l * l.length := by ring

theorem pyMinD_le_pyAvg (l : List ℚ) (h : l ≠ []) : pyMinD l ≤ pyAvg l := by
  have hlen : 0 < l.length := List.length_pos.mpr h
  have hsum : (l.length : ℚ) * pyMinD l ≤ l.sum :=
    length_mul_le_sum l (pyMinD l) (fun x hx => pyMinD_le_mem l x hx)
  unfold pyAvg
  rw [if_neg (by simpa [List.isEmpty_iff] using h), mkRat_natCast_one]
  have hpos : (0 : ℚ) < (l.length : ℚ) := by positivity
  rw [le_div_iff₀ hpos]
  calc pyMinD l * l.length = l.length * pyMinD l := by ring
    _ ≤ l.sum := hsum

theorem pyMinD_le_pyMaxD (l : List ℚ) (h : l ≠ []) : pyMinD l ≤ pyMaxD l := by
  cases l with
  | nil => exact absurd rfl h
  | cons x xs =>
    exact le_trans (pyMinD_le_mem (x :: xs) x (by simp)) (mem_le_pyMaxD (x :: xs) x (by simp))

theorem aggScore_between (scores : List ℚ) (h : scores ≠ []) :
    pyMinD scores ≤ aggScore scores ∧ aggScore scores ≤ pyMaxD scores := by
  have h1 : pyAvg scores ≤ pyMaxD scores := pyAvg_le_pyMaxD scores h
  have h2 : pyMinD scores ≤ pyAvg scores := pyMinD_le_pyAvg scores h
  have h3 : pyMinD scores ≤ pyMaxD scores := pyMinD_le_pyMaxD scores h
  have h7 : q 7 10 = 7 / 10 := by rw [q, Rat.mkRat_eq_div]; norm_num
  have h3' : q 3 10 = 3 / 10 := by rw [q, Rat.mkRat_eq_div]; norm_num
  unfold aggScore
  rw [h7, h3']
  constructor <;> nlinarith [h1, h2, h3]

theorem mem_groupKeys_src (hits : List ChunkHit) :
    ∀ (acc : List Str) (k : Str), k ∈ hits.foldl
        (fun acc h => if acc.contains (hitKey h) then acc else acc ++ [hitKey h]) acc →
      k ∈ acc ∨ ∃ h ∈ hits, hitKey h = k := by
  induction hits with
  | nil => intro acc k hk; exact Or.inl hk
  | cons h hits ih =>
    intro acc k hk
    simp only [List.foldl_cons] at hk
    rcases ih _ k hk with h1 | h1
    · by_cases hc : acc.contains (hitKey h)
      · rw [if_pos hc] at h1
        exact Or.inl h1
      · rw [if_neg hc] at h1
        rcases List.mem_append.mp h1 with h2 | h2
        · exact Or.inl h2
        · refine Or.inr ⟨h, by simp, ?_⟩
          have : k = hitKey h := by simpa using h2
          exact this.symm
    · obtain ⟨h', hmem, hkey⟩ := h1
      exact Or.inr ⟨h', by simp [hmem], hkey⟩

theorem scoresFor_ne_nil (hits : List ChunkHit) (k : Str) (hk : k ∈ groupKeys hits) :
    scoresFor hits k ≠ [] := by
  rcases mem_groupKeys_src hits [] k hk with h1 | h1
  · simp at h1
  · obtain ⟨h, hmem, hkey⟩ := h1
    have : h ∈ hits.filter (fun h => hitKey h == k) := by
      rw [List.mem_filter]
      exact ⟨hmem, by simp [hkey]⟩
    unfold scoresFor
    intro hnil
    rw [List.map_eq_nil_iff] at hnil
    rw [hnil] at this
    simp at this

/-! ### Filter-engine lemmas -/

theorem mem_insertDesc (x a : FJob) (l : List FJob) :
    a ∈ insertDesc x l ↔ a = x ∨ a ∈ l := by
  induction l with
  | nil => simp [insertDesc]
  | cons y ys ih =>
    unfold insertDesc
    split
    · simp only [List.mem_cons, ih]
      try tauto
    · simp only [List.mem_cons]
      try tauto

theorem mem_sortDescFJ (a : FJob) (l : List FJob) :
    a ∈ sortDescFJ l ↔ a ∈ l := by
  induction l with
  | nil => simp [sortDescFJ]
  | cons x xs ih =>
    simp only [sortDescFJ, mem_insertDesc, ih, List.mem_cons]
    try tauto

theorem evalBoost_exclude_passed (req : SearchRequest) (job : AggJob) (b : ℚ)
    (h : evalBoost req job = some b) :
    ruleExclude req (lowerStr job.metadata.text) = some () := by
  simp only [evalBoost] at h
  cases he : ruleExclude req (lowerStr job.metadata.text) with
  | some u => rfl
  | none => rw [he] at h; simp at h

theorem evalJob_some_text (req : SearchRequest) (job : AggJob) (r : FJob)
    (h : evalJob req job = some r) :
    r.text = job.metadata.text ∧ r.id = job.id ∧
      ruleExclude req (lowerStr job.metadata.text) = some () := by
  unfold evalJob at h
  cases hb : evalBoost req job with
  | none => rw [hb] at h; simp at h
  | some b =>
    rw [hb] at h
    simp only [Option.map_some', Option.some_inj] at h
    subst h
    exact ⟨rfl, rfl, evalBoost_exclude_passed req job b hb⟩

theorem ruleExclude_some_no_kw (req : SearchRequest) (tl : Str)
    (h : ruleExclude req tl = some ()) :
    ∀ kw ∈ req.exclude_keywords, containsSub (lowerStr kw) tl = false := by
  unfold ruleExclude at h
  by_cases hany : req.exclude_keywords.any (fun kw => containsSub (lowerStr kw) tl) = true
  · rw [if_pos hany] at h
    exact Option.noConfusion h
  · rw [if_neg hany] at h
    intro kw hkw
    have := (List.any_eq_false).mp (by simpa using hany) kw hkw
    simpa using this

/-! ### The preferred_skills rule is boost-only -/

theorem ruleExclude_pref (req : SearchRequest) (ps : List Str) (tl : Str) :
    ruleExclude { req with preferred_skills := ps } tl = ruleExclude req tl := rfl

theorem ruleExpLevel_pref (req : SearchRequest) (ps : List Str) (m : JobMeta) :
    ruleExpLevel { req with preferred_skills := ps } m = ruleExpLevel req m := rfl

theorem ruleExpYears_pref (req : SearchRequest) (ps : List Str) (m : JobMeta) :
    ruleExpYears { req with preferred_skills := ps } m = ruleExpYears req m := rfl

theorem ruleSalary_pref (req : SearchRequest) (ps : List Str) (m : JobMeta) :
    ruleSalary { req with preferred_skills := ps } m = ruleSalary req m := rfl

theorem ruleRemote_pref (req : SearchRequest) (ps : List Str) (m : JobMeta) :
    ruleRemote { req with preferred_skills := ps } m = ruleRemote req m := rfl

theorem ruleHasSalary_pref (req : SearchRequest) (ps : List Str) (m : JobMeta) :
    ruleHasSalary { req with preferred_skills := ps } m = ruleHasSalary req m := rfl

theorem ruleLocations_pref (req : SearchRequest) (ps : List Str) (m : JobMeta) (tl : Str) :
    ruleLocations { req with preferred_skills := ps } m tl = ruleLocations req m tl := rfl

theorem ruleRequiredSkills_pref (req : SearchRequest) (ps : List Str) (m : JobMeta) (tl : Str) :
    ruleRequiredSkills { req with preferred_skills := ps } m tl =
      ruleRequiredSkills req m tl := rfl

theorem ruleEducation_pref (req : SearchRequest) (ps : List Str) (m : JobMeta) (tl : Str) :
    ruleEducation { req with preferred_skills := ps } m tl = ruleEducation req m tl := rfl

theorem ruleBenefits_pref (req : SearchRequest) (ps : List Str) (m : JobMeta) (tl : Str) :
    ruleBenefits { req with preferred_skills := ps } m tl = ruleBenefits req m tl := rfl

theorem rulePreferred_eq (req : SearchRequest) (ps : List Str) (m : JobMeta) (tl : Str) :
    rulePreferred { req with preferred_skills := ps } m tl =
      mkRat ((ps.filter (skillPresent m tl)).length : Int) 1 * q 1 10 := by
  cases ps with
  | nil =>
    show q 0 1 = mkRat ((List.filter (skillPresent m tl) []).length : Int) 1 * q 1 10
    simp only [List.filter_nil, List.length_nil, Nat.cast_zero]
    rw [q, q, Rat.mkRat_eq_div, Rat.mkRat_eq_div]
    norm_num
  | cons x xs => rfl

/-- Changing only `preferred_skills` shifts a surviving job's boost by
exactly 0.1 per matching preferred skill, and never turns survival into a
drop or vice versa. -/
theorem evalBoost_preferred (req : SearchRequest) (ps : List Str) (job : AggJob) :
    evalBoost { req with preferred_skills := ps } job =
      (evalBoost { req with preferred_skills := [] } job).map
        (fun b => b + mkRat ((ps.filter
          (skillPresent job.metadata (lowerStr job.metadata.text))).length : Int) 1 * q 1 10) := by
  simp only [evalBoost, ruleExclude_pref, ruleExpLevel_pref, ruleExpYears_pref,
    ruleSalary_pref, ruleRemote_pref, ruleHasSalary_pref, ruleLocations_pref,
    ruleRequiredSkills_pref, ruleEducation_pref, ruleBenefits_pref, rulePreferred_eq]
  cases ruleExclude req (lowerStr job.metadata.text) <;> try rfl
  cases ruleExpLevel req job.metadata <;> try rfl
  cases ruleExpYears req job.metadata <;> try rfl
  cases ruleSalary req job.metadata <;> try rfl
  cases ruleRemote req job.metadata <;> try rfl
  cases ruleHasSalary req job.metadata <;> try rfl
  cases ruleLocations req job.metadata (lowerStr job.metadata.text) <;> try rfl
  cases ruleRequiredSkills req job.metadata (lowerStr job.metadata.text) <;> try rfl
  cases ruleEducation req job.metadata (lowerStr job.metadata.text) <;> try rfl
  cases ruleBenefits req job.metadata (lowerStr job.metadata.text) <;> try rfl
  simp only [Option.pure_def, Option.bind_eq_bind, Option.some_bind,
    Option.map_some', Option.some_inj]
  have hz : mkRat (((List.filter (skillPresent job.metadata (lowerStr job.metadata.text))
      []).length : Nat) : Int) 1 * q 1 10 = 0 := by
    rw [show (((List.filter (skillPresent job.metadata (lowerStr job.metadata.text))
      []).length : Nat) : Int) = 0 from rfl, q, Rat.mkRat_eq_div, Rat.mkRat_eq_div]
    norm_num
  rw [hz]
  ring

theorem evalJob_preferred_id (req : SearchRequest) (ps : List Str) (job : AggJob) :
    (evalJob { req with preferred_skills := ps } job).map FJob.id =
      (evalJob req job).map FJob.id := by
  have h1 := evalBoost_preferred req ps job
  have h2 := evalBoost_preferred req req.preferred_skills job
  unfold evalJob
  rw [h1, show evalBoost req job =
    evalBoost { req with preferred_skills := req.preferred_skills } job from rfl, h2]
  cases evalBoost { req with preferred_skills := [] } job <;> rfl

theorem filterMap_evalJob_ids (req : SearchRequest) (ps : List Str) :
    ∀ jobs : List AggJob,
      (jobs.filterMap (evalJob { req with preferred_skills := ps })).map FJob.id =
        (jobs.filterMap (evalJob req)).map FJob.id := by
  intro jobs
  induction jobs with
  | nil => simp
  | cons j js ih =>
    simp only [List.filterMap_cons]
    have h := evalJob_preferred_id req ps j
    cases h1 : evalJob { req with preferred_skills := ps } j with
    | none =>
      rw [h1] at h
      cases h2 : evalJob req j with
      | none => simpa [h2] using ih
      | some r => rw [h2] at h; simp at h
    | some r =>
      rw [h1] at h
      cases h2 : evalJob req j with
      | none => rw [h2] at h; simp at h
      | some r' =>
        rw [h2] at h
        simp only [Option.map_some', Option.some_inj] at h
        simp only [List.map_cons, ih, h]

theorem salarySingle_amount_bounds (v n : Int)
    (h : (salarySingle v).amount = some n) : 20000 ≤ n ∧ n ≤ 1000000 := by
  unfold salarySingle at h
  split at h
  · rename_i hb
    simp only [Option.some_inj] at h
    exact h ▸ hb
  · exact Option.noConfusion h

end JobSearch

namespace JobSearch

/-! ### The claims -/

section ClaimProofs

attribute [local semireducible] Rat.mul Rat.add Rat.sub Rat.inv

/-- Claim C10 (confirmed): if `overlap_size < max_chunk_size` then the
overlapping chunking loops (`_create_overlapping_chunks` and
`_split_long_section`) terminate and return a finite chunk list, because the
window start strictly increases by `max_chunk_size - overlap_size` per
iteration.  Termination is modelled by the fueled loops returning `some`
(with fuel `words.length + 1`, which the strictly increasing start makes
sufficient); no constructor check enforces the precondition — `Cfg` accepts
any values, and without it the loops return `none` (divergence). -/
theorem c10_loops_terminate (c : Cfg) (hov : c.overlap_size < c.max_chunk_size)
    (text job_id section_type : Str) (base_index : Nat) :
    (createOverlappingChunks c text job_id).isSome = true ∧
      (splitLongSection c text section_type job_id base_index).isSome = true :=
  ⟨createOverlappingChunks_isSome c text job_id hov,
   splitLongSection_isSome c text section_type job_id base_index hov⟩

/-- Witness for C10 at a concrete configuration and text. -/
theorem c10_witness :
    ((Cfg.mk 5 2 1).overlap_size < (Cfg.mk 5 2 1).max_chunk_size) ∧
      ((createOverlappingChunks (Cfg.mk 5 2 1) (strOf "a b c d e f g") (strOf "j")).isSome = true ∧
        (splitLongSection (Cfg.mk 5 2 1) (strOf "a b c d e f g") (strOf "summary")
          (strOf "j") 0).isSome = true) :=
  ⟨by decide,
   c10_loops_terminate (Cfg.mk 5 2 1) (by decide) (strOf "a b c d e f g") (strOf "j")
     (strOf "summary") 0⟩

/-- Claim C8 (corrected): on repeated headers of one section type,
`identify_sections` overwrites rather than appends — but the stored content
is that of the last occurrence whose following segment is NON-EMPTY, not of
the last occurrence outright: a final occurrence directly followed by
another header (or end of text) does not overwrite, so earlier content
survives.  This theorem characterises the result for every text and section
name: the entry equals the last nonempty-content segment of that name in
the segment decomposition `segsOf`. -/
theorem c8_overwrite_last_nonempty (text : Str) (ty : Str) :
    dictLookup (identifySections text) ty =
      ((segsOf text).filter fun p => decide (p.1 = ty) && !p.2.isEmpty).getLast?.map
        (fun p => pyStrip (joinSep '\n' p.2)) := by
  unfold identifySections segsOf
  rw [identifySectionsLoop_eq_foldl, dictLookup_foldl_applySeg]
  cases ((segsAux (strOf "summary") [] (splitLines text)).filter
      fun p => decide (p.1 = ty) && !p.2.isEmpty).getLast? <;> rfl

/-- Counterexample for C8 as stated: in
`"Requirements\nold stuff\nRequirements\nBenefits\nbbb"` the last
`Requirements` header is immediately followed by the `Benefits` header, so
the claim ("only the content accumulated after the last occurrence") demands
an empty/absent `requirements` entry; the code keeps the earlier
accumulation `"old stuff"` because the empty segment never overwrites. -/
theorem c8_counterexample :
    dictLookup (identifySections
        (strOf "Requirements\nold stuff\nRequirements\nBenefits\nbbb"))
        (strOf "requirements") = some (strOf "old stuff") := by
  decide

/-- Claim C7 (corrected, amended): only the single-value `amount` branch of
`extract_salary_regex` enforces the sane bound — every `amount` value lies
within 20,000..1,000,000, for every possible set of `re.findall` results.
The range branches (`min`/`max` keys) store their values without any bound
check, so the claim as stated is false (see the counterexample). -/
theorem c7_amount_bounded (m : SalaryMatches) (n : Int)
    (h : (extractSalaryCore m).amount = some n) : 20000 ≤ n ∧ n ≤ 1000000 := by
  obtain ⟨p1, p2, p3, p4, p5, p6, p7, p8⟩ := m
  cases p1 with
  | cons g t => exact Option.noConfusion h
  | nil =>
    cases p2 with
    | cons g t => exact Option.noConfusion h
    | nil =>
      cases p3 with
      | cons g t => exact Option.noConfusion h
      | nil =>
        cases p4 with
        | cons a t => exact salarySingle_amount_bounds _ n h
        | nil =>
          cases p5 with
          | cons a t => exact salarySingle_amount_bounds _ n h
          | nil =>
            cases p6 with
            | cons a t => exact salarySingle_amount_bounds _ n h
            | nil =>
              cases p7 with
              | cons a t => exact salarySingle_amount_bounds _ n h
              | nil =>
                cases p8 with
                | cons a t => exact salarySingle_amount_bounds _ n h
                | nil => exact Option.noConfusion h

/-- Witness for C7: `salary: $50,000` — pattern 4's findall returns
`["50,000"]` and the recorded amount 50000 is within the bound. -/
theorem c7_witness :
    ((extractSalaryCore { p4 := [strOf "50,000"] }).amount = some 50000) ∧
      (20000 ≤ (50000 : Int) ∧ (50000 : Int) ≤ 1000000) :=
  ⟨by decide, c7_amount_bounded { p4 := [strOf "50,000"] } 50000 (by decide)⟩

/-- Counterexample for C7 as stated: on the text `"$1 - $2"` the first range
pattern's `re.findall` returns `[("1", "2")]`, and the range branch stores
`min = 1`, `max = 2` with no sane-bound check — 1 is far below 20,000. -/
theorem c7_counterexample :
    extractSalaryCore { p1 := [(strOf "1", strOf "2")] } =
      { min := some 1, max := some 2, amount := none } ∧ ¬(20000 ≤ (1 : Int)) :=
  ⟨by decide, by decide⟩

/-- Claim C4 (confirmed): for every group of chunk hits sharing a parent job
id, the aggregate score equals `max_score*0.7 + avg_score*0.3` where
`max_score`/`avg_score` are the group's maximum and arithmetic mean, and it
always lies within `[min(scores), max(scores)]`. -/
theorem c4_aggregate_score (hits : List ChunkHit) (k : Str) (hk : k ∈ groupKeys hits) :
    aggScore (scoresFor hits k) =
        pyMaxD (scoresFor hits k) * q 7 10 + pyAvg (scoresFor hits k) * q 3 10 ∧
      pyMinD (scoresFor hits k) ≤ aggScore (scoresFor hits k) ∧
      aggScore (scoresFor hits k) ≤ pyMaxD (scoresFor hits k) := by
  have hne := scoresFor_ne_nil hits k hk
  exact ⟨rfl, (aggScore_between _ hne).1, (aggScore_between _ hne).2⟩

/-- Witness for C4: the specification's example — two hits for `job_42`
scoring 0.90 and 0.60 (the aggregate 0.855 indeed lies between them). -/
theorem c4_witness :
    (strOf "job_42" ∈ groupKeys
        [ChunkHit.mk (strOf "job_42_chunk_0") (q 9 10) (some (strOf "job_42")),
         ChunkHit.mk (strOf "job_42_chunk_1") (q 6 10) (some (strOf "job_42"))]) ∧
      pyMinD (scoresFor
          [ChunkHit.mk (strOf "job_42_chunk_0") (q 9 10) (some (strOf "job_42")),
           ChunkHit.mk (strOf "job_42_chunk_1") (q 6 10) (some (strOf "job_42"))]
          (strOf "job_42")) ≤
        aggScore (scoresFor
          [ChunkHit.mk (strOf "job_42_chunk_0") (q 9 10) (some (strOf "job_42")),
           ChunkHit.mk (strOf "job_42_chunk_1") (q 6 10) (some (strOf "job_42"))]
          (strOf "job_42")) :=
  ⟨by decide,
   (c4_aggregate_score
     [ChunkHit.mk (strOf "job_42_chunk_0") (q 9 10) (some (strOf "job_42")),
      ChunkHit.mk (strOf "job_42_chunk_1") (q 6 10) (some (strOf "job_42"))]
     (strOf "job_42") (by decide)).2.1⟩

/-- Sublists of chunk lists have smaller word-count sums. -/
theorem sublist_map_sum_le (f : TextChunk → Nat) (l₁ l₂ : List TextChunk)
    (hs : l₁.Sublist l₂) : (l₁.map f).sum ≤ (l₂.map f).sum :=
  List.Sublist.sum_le_sum (hs.map f) (fun a _ => Nat.zero_le a)

/-- Claim C1 (corrected, amended): when every identified section's word
count lies within `[min_chunk_size, max_chunk_size]` (so no section is
dropped or split), the chunk list of the SECTION strategy has pairwise
distinct `chunk_index` values — the section chunks carry the consecutive
enumeration indices and the trailing `full` chunk carries the list length.
In general the claim is false: a dropped section shifts `len(chunks)` below
the surviving enumeration indices and the `full` chunk collides (see the
counterexample). -/
theorem c1_chunk_index_unique (c : Cfg) (bp : Str → Str) (text job_id : Str)
    (h : ((identifySections text).all fun p =>
      decide (c.min_chunk_size ≤ wc p.2) && decide (wc p.2 ≤ c.max_chunk_size)) = true) :
    (((createChunks c bp text job_id (strOf "sections")).getD []).map
      TextChunk.chunk_index).Nodup := by
  have hall := List.all_eq_true.mp h
  have hvals := identifySections_values_ne_nil text
  have hgood : ∀ p ∈ (identifySections text).enum, ¬p.2.2.isEmpty = true ∧
      c.min_chunk_size ≤ wc p.2.2 ∧ wc p.2.2 ≤ c.max_chunk_size := by
    intro p hp
    have hmem := mem_enum_snd _ p hp
    have h1 := hall p.2 hmem
    have h2 := hvals p.2 hmem
    refine ⟨h2, ?_, ?_⟩
    · exact of_decide_eq_true ((Bool.and_eq_true _ _).mp h1).1
    · exact of_decide_eq_true ((Bool.and_eq_true _ _).mp h1).2
  obtain ⟨ch, hch, hidx⟩ :=
    sectionChunksCore_indices c job_id (identifySections text).enum hgood
  have hlen : ch.length = (identifySections text).length := by
    have := congrArg List.length hidx
    simpa using this
  have hidx' : ch.map TextChunk.chunk_index = List.range (identifySections text).length := by
    rw [hidx, List.enum_map_fst]
  have hcreate : ∃ raw, createSectionChunks c text job_id = some raw ∧
      (raw.map TextChunk.chunk_index).Nodup := by
    simp only [createSectionChunks, hch]
    by_cases hfull : c.min_chunk_size ≤ (pyWords text).length
    · rw [if_pos hfull]
      refine ⟨_, rfl, ?_⟩
      simp only [List.map_append, List.map_cons, List.map_nil]
      rw [hidx', hlen, ← List.range_succ]
      exact List.nodup_range _
    · rw [if_neg hfull]
      refine ⟨_, rfl, ?_⟩
      rw [hidx']
      exact List.nodup_range _
  obtain ⟨raw, hraw, hnodup⟩ := hcreate
  have hcc : createChunks c bp text job_id (strOf "sections") =
      some (filterChunks c bp raw) := by
    unfold createChunks
    rw [if_pos rfl, hraw]
    rfl
  rw [hcc, Option.getD_some]
  unfold filterChunks
  exact List.Nodup.sublist ((List.filter_sublist raw).map TextChunk.chunk_index) hnodup

/-- Witness for C1: a single in-range section plus the full fallback. -/
theorem c1_witness :
    (((identifySections (strOf "alpha beta gamma")).all fun p =>
      decide ((Cfg.mk 50 10 1).min_chunk_size ≤ wc p.2) &&
        decide (wc p.2 ≤ (Cfg.mk 50 10 1).max_chunk_size)) = true) ∧
      (((createChunks (Cfg.mk 50 10 1) id (strOf "alpha beta gamma") (strOf "j")
        (strOf "sections")).getD []).map TextChunk.chunk_index).Nodup :=
  ⟨by decide,
   c1_chunk_index_unique (Cfg.mk 50 10 1) id (strOf "alpha beta gamma") (strOf "j")
     (by decide)⟩

/-- Counterexample for C1 as stated: with `min_chunk_size = 2` the one-word
`summary` section is dropped, the surviving sections keep enumeration
indices 1 and 2, and the trailing `full` chunk gets index `len(chunks) = 2`
— a duplicate of the benefits chunk's index. -/
theorem c1_counterexample :
    (createChunks (Cfg.mk 50 10 2) id
        (strOf "short\nRequirements\nalpha beta gamma\nBenefits\ndelta epsilon zeta")
        (strOf "job1") (strOf "sections")).map (fun l => l.map TextChunk.chunk_index) =
      some [1, 2, 2] ∧ ¬([1, 2, 2] : List Nat).Nodup :=
  ⟨by decide, by decide⟩

/-- Claim C2 (corrected, amended): the synthetic `full` chunk (whole cleaned
text, confidence fixed at 0.8) is appended last and survives filtering
PROVIDED the text has at least `min_chunk_size` words, the boilerplate
ratio of the whole text is at most 0.7, and `overlap_size < max_chunk_size`
(so oversized-section splitting terminates).  Without the word-count
proviso the claim is false: short documents get no `full` chunk at all (see
the counterexample). -/
theorem c2_full_fallback (c : Cfg) (bp : Str → Str) (text job_id : Str)
    (hov : c.overlap_size < c.max_chunk_size)
    (hmin : c.min_chunk_size ≤ wc text)
    (hbp : boilerplateRat bp text ≤ q 7 10) :
    (createChunks c bp text job_id (strOf "sections")).getD [] ≠ [] ∧
      ((createChunks c bp text job_id (strOf "sections")).getD []).getLast?.map
        (fun ch => (ch.chunk_type, ch.text, ch.confidence_score)) =
        some (strOf "full", text, q 8 10) := by
  have hcore := sectionChunksCore_isSome c job_id hov (identifySections text).enum
  obtain ⟨chunks0, hc0⟩ := Option.isSome_iff_exists.mp hcore
  have hmin' : c.min_chunk_size ≤ (pyWords text).length := hmin
  have hkeepfull : keepChunk c bp
      { text := text, chunk_type := strOf "full", chunk_index := chunks0.length,
        parent_job_id := job_id, word_count := (pyWords text).length,
        confidence_score := q 8 10 } = true := by
    unfold keepChunk
    have h1 : ¬((pyWords text).length < c.min_chunk_size) := by omega
    have h2 : ¬((q 8 10 : ℚ) < q 3 10) := by
      rw [q, q, Rat.mkRat_eq_div, Rat.mkRat_eq_div]
      norm_num
    have h3 : ¬(q 7 10 < boilerplateRat bp text) := not_lt.mpr hbp
    rw [if_neg h1, if_neg h2, if_neg h3]
  have hcreate : createSectionChunks c text job_id = some (chunks0 ++
      [{ text := text, chunk_type := strOf "full", chunk_index := chunks0.length,
         parent_job_id := job_id, word_count := (pyWords text).length,
         confidence_score := q 8 10 }]) := by
    simp only [createSectionChunks, hc0]
    rw [if_pos hmin']
  have hcc : createChunks c bp text job_id (strOf "sections") =
      some (filterChunks c bp (chunks0 ++
        [{ text := text, chunk_type := strOf "full", chunk_index := chunks0.length,
           parent_job_id := job_id, word_count := (pyWords text).length,
           confidence_score := q 8 10 }])) := by
    unfold createChunks
    rw [if_pos rfl, hcreate]
    rfl
  rw [hcc, Option.getD_some]
  unfold filterChunks
  rw [List.filter_append]
  have hsingle : List.filter (keepChunk c bp)
      [{ text := text, chunk_type := strOf "full", chunk_index := chunks0.length,
         parent_job_id := job_id, word_count := (pyWords text).length,
         confidence_score := q 8 10 }] =
      [{ text := text, chunk_type := strOf "full", chunk_index := chunks0.length,
         parent_job_id := job_id, word_count := (pyWords text).length,
         confidence_score := q 8 10 }] := by
    simp only [List.filter_cons, List.filter_nil, hkeepfull, if_true]
  rw [hsingle]
  constructor
  · simp
  · rw [List.getLast?_concat]
    rfl

/-- Witness for C2 at a concrete configuration and text. -/
theorem c2_witness :
    ((Cfg.mk 50 10 1).overlap_size < (Cfg.mk 50 10 1).max_chunk_size) ∧
      ((Cfg.mk 50 10 1).min_chunk_size ≤ wc (strOf "alpha beta gamma")) ∧
      (boilerplateRat id (strOf "alpha beta gamma") ≤ q 7 10) ∧
      ((createChunks (Cfg.mk 50 10 1) id (strOf "alpha beta gamma") (strOf "j")
          (strOf "sections")).getD [] ≠ [] ∧
        ((createChunks (Cfg.mk 50 10 1) id (strOf "alpha beta gamma") (strOf "j")
          (strOf "sections")).getD []).getLast?.map
            (fun ch => (ch.chunk_type, ch.text, ch.confidence_score)) =
          some (strOf "full", strOf "alpha beta gamma", q 8 10)) :=
  ⟨by decide, by decide, by decide,
   c2_full_fallback (Cfg.mk 50 10 1) id (strOf "alpha beta gamma") (strOf "j")
     (by decide) (by decide) (by decide)⟩

/-- Counterexample for C2 as stated: a two-word text with
`min_chunk_size = 3` produces no chunks at all — the `full` fallback is only
created when the text has at least `min_chunk_size` words, contradicting
"regardless of the document's word count". -/
theorem c2_counterexample :
    createChunks (Cfg.mk 50 10 3) id (strOf "hi there") (strOf "job1")
      (strOf "sections") = some [] := by
  decide

/-- Claim C6 (corrected, amended): when no identified section exceeds
`max_chunk_size` (so the overlapping splitter is never invoked), the summed
word counts of the non-`full` chunks of the SECTION strategy never exceed
the text's total word count.  With an oversized section the claim as stated
is false: the overlapping `<type>_part` sub-chunks re-count the overlapped
words (see the counterexample). -/
theorem c6_section_word_bound (c : Cfg) (bp : Str → Str) (text job_id : Str)
    (h : ((identifySections text).all fun p => decide (wc p.2 ≤ c.max_chunk_size)) = true) :
    ((((createChunks c bp text job_id (strOf "sections")).getD []).filter
        (fun ch => decide (ch.chunk_type ≠ strOf "full"))).map TextChunk.word_count).sum ≤
      wc text := by
  have hall := List.all_eq_true.mp h
  have hgood : ∀ p ∈ (identifySections text).enum, wc p.2.2 ≤ c.max_chunk_size :=
    fun p hp => of_decide_eq_true (hall p.2 (mem_enum_snd _ p hp))
  obtain ⟨ch0, hch0, hsum⟩ :=
    sectionChunksCore_sum c job_id (identifySections text).enum hgood
  have hsum2 : ((identifySections text).enum.map (fun p => wc p.2.2)).sum =
      ((identifySections text).map (fun p => wc p.2)).sum := by
    rw [show (fun (p : Nat × Str × Str) => wc p.2.2) =
      ((fun (p : Str × Str) => wc p.2) ∘ Prod.snd) from rfl]
    rw [← List.map_map, List.enum_map_snd]
  have hbound : (ch0.map TextChunk.word_count).sum ≤ wc text := by
    calc (ch0.map TextChunk.word_count).sum
        ≤ ((identifySections text).enum.map (fun p => wc p.2.2)).sum := hsum
      _ = ((identifySections text).map (fun p => wc p.2)).sum := hsum2
      _ ≤ wc text := identifySections_sumVals text
  have hcreate : ∃ raw, createSectionChunks c text job_id = some raw ∧
      ((raw.filter (fun ch => decide (ch.chunk_type ≠ strOf "full"))).map
        TextChunk.word_count).sum ≤ (ch0.map TextChunk.word_count).sum := by
    simp only [createSectionChunks, hch0]
    by_cases hfull : c.min_chunk_size ≤ (pyWords text).length
    · rw [if_pos hfull]
      refine ⟨_, rfl, ?_⟩
      rw [List.filter_append]
      have hff : List.filter (fun ch : TextChunk => decide (ch.chunk_type ≠ strOf "full"))
          [{ text := text, chunk_type := strOf "full", chunk_index := ch0.length,
             parent_job_id := job_id, word_count := (pyWords text).length,
             confidence_score := q 8 10 }] = [] := by
        simp only [List.filter_cons, List.filter_nil]
        rw [show (decide (((strOf "full") : Str) ≠ strOf "full")) = false by decide]
        rfl
      rw [hff, List.append_nil]
      exact sublist_map_sum_le TextChunk.word_count _ ch0 (List.filter_sublist ch0)
    · rw [if_neg hfull]
      exact ⟨ch0, rfl,
        sublist_map_sum_le TextChunk.word_count _ ch0 (List.filter_sublist ch0)⟩
  obtain ⟨raw, hraw, hle⟩ := hcreate
  have hcc : createChunks c bp text job_id (strOf "sections") =
      some (filterChunks c bp raw) := by
    unfold createChunks
    rw [if_pos rfl, hraw]
    rfl
  rw [hcc, Option.getD_some]
  have hchain : ((filterChunks c bp raw).filter
      (fun ch => decide (ch.chunk_type ≠ strOf "full"))).Sublist
      (raw.filter (fun ch => decide (ch.chunk_type ≠ strOf "full"))) :=
    List.Sublist.filter _ (List.filter_sublist raw)
  calc (((filterChunks c bp raw).filter
        (fun ch => decide (ch.chunk_type ≠ strOf "full"))).map TextChunk.word_count).sum
      ≤ ((raw.filter (fun ch => decide (ch.chunk_type ≠ strOf "full"))).map
          TextChunk.word_count).sum := sublist_map_sum_le TextChunk.word_count _ _ hchain
    _ ≤ (ch0.map TextChunk.word_count).sum := hle
    _ ≤ wc text := hbound

/-- Witness for C6 at a concrete configuration and text. -/
theorem c6_witness :
    (((identifySections (strOf "alpha beta gamma")).all fun p =>
        decide (wc p.2 ≤ (Cfg.mk 50 10 1).max_chunk_size)) = true) ∧
      ((((createChunks (Cfg.mk 50 10 1) id (strOf "alpha beta gamma") (strOf "j")
          (strOf "sections")).getD []).filter
            (fun ch => decide (ch.chunk_type ≠ strOf "full"))).map
          TextChunk.word_count).sum ≤ wc (strOf "alpha beta gamma") :=
  ⟨by decide,
   c6_section_word_bound (Cfg.mk 50 10 1) id (strOf "alpha beta gamma") (strOf "j")
     (by decide)⟩

/-- Counterexample for C6 as stated: a five-word summary split with
`max_chunk_size = 4`, `overlap_size = 2` yields parts of 4 and 3 words
(after the 1-word tail is filtered), summing to 7 > 5 total words. -/
theorem c6_counterexample :
    ((((createChunks (Cfg.mk 4 2 2) id (strOf "alpha beta gamma delta epsilon")
        (strOf "job1") (strOf "sections")).getD []).filter
          (fun ch => decide (ch.chunk_type ≠ strOf "full"))).map
        TextChunk.word_count).sum = 7 ∧
      wc (strOf "alpha beta gamma delta epsilon") = 5 ∧ ¬((7 : Nat) ≤ 5) :=
  ⟨by decide, by decide, by decide⟩

/-- Claim C3 (confirmed): a job whose combined text contains any excluded
keyword (case-insensitively) never appears in the Filter Engine's output,
regardless of every other criterion — equivalently, every output entry's
text is free of all excluded keywords.  The exclude rule is the first one
evaluated in `_filter_jobs` and a hit skips the job before any other rule
runs. -/
theorem c3_exclude_keywords (jobs : List AggJob) (req : SearchRequest) (r : FJob)
    (hr : r ∈ filterJobs jobs req) (kw : Str) (hkw : kw ∈ req.exclude_keywords) :
    containsSub (lowerStr kw) (lowerStr r.text) = false := by
  unfold filterJobs at hr
  have h1 : r ∈ sortDescFJ (jobs.filterMap (evalJob req)) := List.take_subset _ _ hr
  have h2 : r ∈ jobs.filterMap (evalJob req) := (mem_sortDescFJ r _).mp h1
  obtain ⟨j, hj, hev⟩ := List.mem_filterMap.mp h2
  obtain ⟨htext, _, hex⟩ := evalJob_some_text req j r hev
  rw [htext]
  exact ruleExclude_some_no_kw req (lowerStr j.metadata.text) hex kw hkw

/-- Witness for C3: a surviving job and an excluded keyword it does not
contain. -/
theorem c3_witness :
    ((filterJobs [AggJob.mk (strOf "a") (q 1 2) { text := strOf "hello world" }]
          { exclude_keywords := [strOf "xyz"] }).headD
        (FJob.mk [] (q 0 1) [] { text := [] }) ∈
      filterJobs [AggJob.mk (strOf "a") (q 1 2) { text := strOf "hello world" }]
        { exclude_keywords := [strOf "xyz"] }) ∧
      (strOf "xyz" ∈ (({ exclude_keywords := [strOf "xyz"] } : SearchRequest)).exclude_keywords) ∧
      containsSub (lowerStr (strOf "xyz"))
        (lowerStr ((filterJobs [AggJob.mk (strOf "a") (q 1 2) { text := strOf "hello world" }]
            { exclude_keywords := [strOf "xyz"] }).headD
          (FJob.mk [] (q 0 1) [] { text := [] })).text) = false :=
  ⟨by decide, by decide,
   c3_exclude_keywords [AggJob.mk (strOf "a") (q 1 2) { text := strOf "hello world" }]
     { exclude_keywords := [strOf "xyz"] } _ (by decide) (strOf "xyz") (by decide)⟩

/-- Claim C9 (confirmed): the `preferred_skills` rule never causes
exclusion — two criteria differing only in `preferred_skills` produce the
same surviving jobs (same ids, in order) before the top-50 truncation — and
for a duplicate-free preferred list the boost of every job grows by exactly
0.1 per distinct matching preferred skill relative to the empty preferred
list. -/
theorem c9_preferred_boost_only (jobs : List AggJob) (req : SearchRequest)
    (ps : List Str) (j : AggJob) (_hnd : ps.Nodup) :
    (jobs.filterMap (evalJob { req with preferred_skills := ps })).map FJob.id =
        (jobs.filterMap (evalJob req)).map FJob.id ∧
      evalBoost { req with preferred_skills := ps } j =
        (evalBoost { req with preferred_skills := [] } j).map
          (fun b => b + mkRat ((ps.filter
            (skillPresent j.metadata (lowerStr j.metadata.text))).length : Int) 1 * q 1 10) :=
  ⟨filterMap_evalJob_ids req ps jobs, evalBoost_preferred req ps j⟩

/-- Witness for C9: one job and the singleton preferred list `["python"]`. -/
theorem c9_witness :
    ([strOf "python"] : List Str).Nodup ∧
      (([AggJob.mk (strOf "a") (q 1 2) { text := strOf "python dev" }].filterMap
            (evalJob { ({} : SearchRequest) with preferred_skills := [strOf "python"] })).map
          FJob.id =
        ([AggJob.mk (strOf "a") (q 1 2) { text := strOf "python dev" }].filterMap
            (evalJob ({} : SearchRequest))).map FJob.id ∧
        evalBoost { ({} : SearchRequest) with preferred_skills := [strOf "python"] }
            (AggJob.mk (strOf "a") (q 1 2) { text := strOf "python dev" }) =
          (evalBoost { ({} : SearchRequest) with preferred_skills := ([] : List Str) }
              (AggJob.mk (strOf "a") (q 1 2) { text := strOf "python dev" })).map
            (fun b => b + mkRat ((([strOf "python"] : List Str).filter
              (skillPresent (AggJob.mk (strOf "a") (q 1 2)
                  { text := strOf "python dev" }).metadata
                (lowerStr (AggJob.mk (strOf "a") (q 1 2)
                  { text := strOf "python dev" }).metadata.text))).length : Int) 1 * q 1 10)) :=
  ⟨by decide,
   c9_preferred_boost_only [AggJob.mk (strOf "a") (q 1 2) { text := strOf "python dev" }]
     ({} : SearchRequest) [strOf "python"]
     (AggJob.mk (strOf "a") (q 1 2) { text := strOf "python dev" }) (by decide)⟩

/-- Claim C5 (corrected): on the specification's example text the code does
NOT produce the claimed three chunks.  The inline headers
(`Responsibilities: ...` on a content-bearing line) do not match the
anchored header regexes, so the whole text lands in `summary`: the output
is exactly two chunks — `summary` (11 words, quality 0.7) and `full` (11
words, confidence 0.8).  The years regex requires `experience|exp` right
after the unit (optionally via `of`), so `"5 years Python experience"`
yields NO years value; the skills extractor does find `Python`. -/
theorem c5_example_actual :
    (createChunks (Cfg.mk 50 10 3) id
        (strOf "Responsibilities: Build APIs and ship features.\nRequirements: 5 years Python experience.")
        (strOf "job1") (strOf "sections")).map
        (fun l => l.map (fun ch => (ch.chunk_type, ch.word_count, ch.confidence_score))) =
      some [(strOf "summary", 11, q 7 10), (strOf "full", 11, q 8 10)] ∧
      extractExperienceRegex (strOf "Requirements: 5 years Python experience.") =
        { years := none, level := none } ∧
      strOf "Python" ∈ extractSkillsRegex (strOf "Requirements: 5 years Python experience.") :=
  ⟨by decide, by decide, by decide⟩

/-- Counterexample for C5 as stated: the example yields two chunks, not
three, and the requirements text yields no `experience.years` value. -/
theorem c5_counterexample :
    ((createChunks (Cfg.mk 50 10 3) id
        (strOf "Responsibilities: Build APIs and ship features.\nRequirements: 5 years Python experience.")
        (strOf "job1") (strOf "sections")).map List.length = some 2) ∧
      (2 : Nat) ≠ 3 ∧
      (extractExperienceRegex (strOf "Requirements: 5 years Python experience.")).years =
        none :=
  ⟨by decide, by decide, by decide⟩

end ClaimProofs

end JobSearch
